import Mathlib

/-!
# Verification of `in_range_ext` (decomposed-representation range checking)

This file is a shallow embedding, in Lean 4, of the C++ header `in_range_ext.h`:
a library that decides whether a numeric value of one type (integer or
floating-point) lies in the representable range of another numeric type, using a
radix-generic decomposed representation instead of direct (rounding) conversion.

Modelling decisions:

* A floating-point *format* is a `Format`: radix, precision in digits, and the
  `min_exponent` / `max_exponent` values of `std::numeric_limits`.
* A floating-point *value* is an `FP`: NaN, a signed infinity, or a signed
  finite value carried as an exact rational magnitude (`FP.fin s m` denotes
  `-m` when `s = true`, and `m = 0` gives the two signed zeros).  A value of a
  format `F` is one whose magnitude satisfies `Format.RepMag F`.
* Every arithmetic step performed by the library on floating-point values is
  exact (the library is designed so that no operation it performs ever rounds:
  digit extraction subtracts a representable integer part and rescales by the
  radix, reconstruction sums exact digit multiples, `scalbn` rescales by radix
  powers inside the representable range).  The embedding therefore models the
  primitive operations by their exact rational results.  Machine `int`
  quantities (exponents, digit counts) are modelled as unbounded `ℤ`/`ℕ`; the
  single overflow guard in the source that this erases (`rep.ilogb == INT_MIN`
  in the `decomp(F)` constructor, a two-step rescale protecting `-ilogb` from
  overflowing `int`) is dead under unbounded integers and is noted where it is
  omitted.
* The portable constant-evaluation fallbacks of `<cmath>` primitives
  (`detail::constexpr_cmath`) are embedded from the source; the platform `std::`
  implementations they must agree with are not part of the repository and are
  modelled from the spec (definitions marked `Modelled from the spec:`).
-/

namespace InRangeExt

/-- Typical 32-bit `INT_MAX`, used by the source as the `ilogb` result for an
infinite argument. -/
def INT_MAX : ℤ := 2 ^ 31 - 1

/-- Typical 32-bit `INT_MIN`. -/
def INT_MIN : ℤ := -(2 ^ 31)

/-- `FP_ILOGB0` (the `ilogb` result for a zero argument); `INT_MIN` on common
platforms. -/
def FP_ILOGB0 : ℤ := INT_MIN

/-- `FP_ILOGBNAN` (the `ilogb` result for a NaN argument); `INT_MIN` on glibc. -/
def FP_ILOGBNAN : ℤ := INT_MIN

/-- The five classification categories returned by `fpclassify`
(`FP_ZERO`, `FP_SUBNORMAL`, `FP_NORMAL`, `FP_INFINITE`, `FP_NAN`). -/
inductive Category where
  | zero
  | subnormal
  | normal
  | infinite
  | nan
deriving DecidableEq, Repr

/-- A floating-point format: the `std::numeric_limits` parameters the source
consults.  `radix` is the base, `digits` the precision in base-`radix` digits,
`minExp`/`maxExp` are `min_exponent`/`max_exponent` (one more than the extreme
base-`radix` exponents of normal values). -/
structure Format where
  radix : ℕ
  digits : ℕ
  minExp : ℤ
  maxExp : ℤ
deriving DecidableEq, Repr

/-- A floating-point value in exact-value semantics: NaN, signed infinity, or a
signed finite value with exact rational magnitude (`fin s 0` are the signed
zeros). -/
inductive FP where
  | nan : FP
  | inf (sign : Bool) : FP
  | fin (sign : Bool) (mag : ℚ) : FP
deriving DecidableEq, Repr

namespace FP

/-- The signed rational value of a finite `FP` (zero on NaN/infinity, where it
is never consulted). -/
def val : FP → ℚ
  | .nan => 0
  | .inf _ => 0
  | .fin s m => if s then -m else m

/-- The magnitude of a finite `FP` (zero on NaN/infinity, never consulted). -/
def magOf : FP → ℚ
  | .fin _ m => m
  | _ => 0

/-- The sign bit of an `FP` value (NaN modelled as unsigned; NaN sign is
implementation-defined and excluded from every agreement requirement). -/
def sign : FP → Bool
  | .nan => false
  | .inf s => s
  | .fin s _ => s

/-- Floating-point negation. -/
def neg : FP → FP
  | .nan => .nan
  | .inf s => .inf (!s)
  | .fin s m => .fin (!s) m

/-- IEEE `<` comparison: false whenever an operand is NaN; the two signed zeros
compare equal. -/
def lt : FP → FP → Bool
  | .nan, _ => false
  | _, .nan => false
  | .inf s, .inf t => s && !t
  | .inf s, .fin _ _ => s
  | .fin _ _, .inf t => !t
  | .fin s m, .fin t n => decide ((if s then -m else m) < (if t then -n else n))

/-- IEEE `<=` comparison: false whenever an operand is NaN. -/
def le : FP → FP → Bool
  | .nan, _ => false
  | _, .nan => false
  | .inf s, .inf t => s == t || (s && !t)
  | .inf s, .fin _ _ => s
  | .fin _ _, .inf t => !t
  | .fin s m, .fin t n => decide ((if s then -m else m) ≤ (if t then -n else n))

/-- IEEE `==` comparison: false whenever an operand is NaN; `-0.0 == +0.0`. -/
def beq : FP → FP → Bool
  | .nan, _ => false
  | _, .nan => false
  | .inf s, .inf t => s == t
  | .inf _, .fin _ _ => false
  | .fin _ _, .inf _ => false
  | .fin s m, .fin t n => decide ((if s then -m else m) = (if t then -n else n))

end FP

namespace Format

/-- `std::numeric_limits<F>::max()`, as an exact rational:
`(radix^digits - 1) * radix^(max_exponent - digits)`. -/
def fmax (F : Format) : ℚ := ((F.radix : ℚ) ^ F.digits - 1) * (F.radix : ℚ) ^ (F.maxExp - F.digits)

/-- `std::numeric_limits<F>::min()` (smallest positive normal value),
`radix^(min_exponent - 1)`. -/
def fminNormal (F : Format) : ℚ := (F.radix : ℚ) ^ (F.minExp - 1)

/-- `std::numeric_limits<F>::lowest() = -max()`. -/
def lowestFP (F : Format) : FP := FP.fin true F.fmax

/-- `std::numeric_limits<F>::max()` as an `FP` value. -/
def maxFP (F : Format) : FP := FP.fin false F.fmax

/-- A rational is a representable magnitude of the format: `k * radix^e` with
`k < radix^digits` and `minExp - digits ≤ e ≤ maxExp - digits`.  This captures
exactly the finite values of an IEEE-like type (including zero, subnormals, and
reduced subnormal precision). -/
def RepMag (F : Format) (m : ℚ) : Prop :=
  ∃ k : ℕ, ∃ e : ℤ, m = (k : ℚ) * (F.radix : ℚ) ^ e ∧ k < F.radix ^ F.digits ∧
    F.minExp - F.digits ≤ e ∧ e ≤ F.maxExp - F.digits

/-- Sanity constraints on a format, true of every IEEE-like type: radix at
least 2, at least one digit of precision, a nondegenerate exponent range, and
(as in all real formats) `max_exponent` at least the precision, so that
`max()` is at least `radix^digits - 1`. -/
def Valid (F : Format) : Prop :=
  2 ≤ F.radix ∧ 1 ≤ F.digits ∧ F.minExp ≤ F.maxExp ∧ (F.digits : ℤ) ≤ F.maxExp

end Format

/-! ## `detail::constexpr_cmath`: the portable constant-evaluation fallbacks -/

namespace ConstexprCmath

/-- Fallback `signbit` (the non-builtin path of the source):
`f < 0 || (f == 0 && bit_cast(f) == bit_cast(-0.0))`; the bit comparison with
`-0.0` is modelled as structural equality with the negative zero value.  As the
source comments, this path does not inspect NaN payloads (NaN reports
unsigned). -/
def signbit (f : FP) : Bool :=
  FP.lt f (FP.fin false 0) || (FP.beq f (FP.fin false 0) && f == FP.fin true 0)

/-- Fallback `copysign`: `signbit(f) == signbit(s) ? f : -f`. -/
def copysign (f s : FP) : FP :=
  if signbit f == signbit s then f else FP.neg f

/-- Fallback `fpclassify`, exactly the source comparison chain:
zero if `f == 0`; subnormal if `-min() < f < min()`; normal if
`lowest() <= f <= max()`; infinite if `f == f`; otherwise NaN. -/
def fpclassify (F : Format) (f : FP) : Category :=
  if FP.beq f (FP.fin false 0) then .zero
  else if FP.lt (FP.fin true F.fminNormal) f && FP.lt f (FP.fin false F.fminNormal) then .subnormal
  else if FP.le (FP.fin true F.fmax) f && FP.le f (FP.fin false F.fmax) then .normal
  else if FP.beq f f then .infinite
  else .nan

/-- The first `ilogb` loop, `for (; f < 1; f *= radix) --exp;`, returning the
final `f` together with the exponent decrement it accumulated.  The guard
`2 ≤ R ∧ 0 < f` records the source precondition under which the C++ loop
terminates (the loop is only ever reached with a positive finite `f`). -/
def ilogbLoopUp (R : ℕ) (f : ℚ) : ℚ × ℤ :=
  if h : 2 ≤ R ∧ 0 < f ∧ f < 1 then
    let p := ilogbLoopUp R (f * R)
    (p.1, p.2 - 1)
  else (f, 0)
termination_by (⌈f⁻¹⌉₊ : ℕ)
decreasing_by
  rcases h with ⟨hR, hf, h1⟩
  have hR1 : (1 : ℚ) < R := by exact_mod_cast Nat.lt_of_lt_of_le Nat.one_lt_two hR
  have hx : (1 : ℚ) < f⁻¹ := (one_lt_inv₀ hf).mpr h1
  have hkey : (f * R)⁻¹ ≤ f⁻¹ / 2 := by
    rw [mul_inv, div_eq_mul_inv]
    have h2R : (2 : ℚ)⁻¹ ≥ (R : ℚ)⁻¹ := by
      apply inv_anti₀
      · norm_num
      · exact_mod_cast hR
    nlinarith [inv_pos.mpr hf]
  have hc2 : 2 ≤ ⌈f⁻¹⌉₊ := by
    rw [Nat.add_one_le_iff]
    exact Nat.lt_ceil.mpr (by exact_mod_cast hx)
  have hup : ⌈(f * R)⁻¹⌉₊ ≤ (⌈f⁻¹⌉₊ + 1) / 2 := by
    apply Nat.ceil_le.mpr
    calc (f * R)⁻¹ ≤ f⁻¹ / 2 := hkey
    _ ≤ (⌈f⁻¹⌉₊ : ℚ) / 2 := by
        have := Nat.le_ceil f⁻¹
        linarith
    _ ≤ (((⌈f⁻¹⌉₊ + 1) / 2 : ℕ) : ℚ) := by
        rw [div_le_iff₀ (by norm_num : (0:ℚ) < 2)]
        have h2 : ⌈f⁻¹⌉₊ ≤ ((⌈f⁻¹⌉₊ + 1) / 2) * 2 := by omega
        exact_mod_cast h2
  omega

/-- The second `ilogb` loop, `for (; f >= radix; f /= radix) ++exp;`. -/
def ilogbLoopDown (R : ℕ) (f : ℚ) : ℚ × ℤ :=
  if h : 2 ≤ R ∧ (R : ℚ) ≤ f then
    let p := ilogbLoopDown R (f / R)
    (p.1, p.2 + 1)
  else (f, 0)
termination_by (⌊f⌋₊ : ℕ)
decreasing_by
  rcases h with ⟨hR, hf⟩
  have h2 : (2 : ℚ) ≤ f := le_trans (by exact_mod_cast hR) hf
  have : ⌊f / (R : ℚ)⌋₊ = ⌊f⌋₊ / R := Nat.floor_div_nat f R
  rw [this]
  have hfl : 2 ≤ ⌊f⌋₊ := Nat.le_floor (by exact_mod_cast h2)
  exact Nat.div_lt_self (by omega) (by omega)

/-- Fallback `ilogb`: `FP_ILOGB0` on zero; for finite arguments, take the
absolute value and run the two normalization loops; `INT_MAX` on infinity;
`FP_ILOGBNAN` on NaN. -/
def ilogb (F : Format) (f : FP) : ℤ :=
  if FP.beq f (FP.fin false 0) then FP_ILOGB0
  else if FP.le (FP.fin true F.fmax) f && FP.le f (FP.fin false F.fmax) then
    let fabs := if FP.lt f (FP.fin false 0) then FP.neg f else f
    let p := ilogbLoopUp F.radix (FP.magOf fabs)
    let q := ilogbLoopDown F.radix p.1
    p.2 + q.2
  else if FP.beq f f then INT_MAX
  else FP_ILOGBNAN

/-- The `scalbn` loop `for (; exp < 0; ++exp) f /= radix;` with the iteration
count made explicit. -/
def scalbnLoopDown (R : ℕ) (f : ℚ) : ℕ → ℚ
  | 0 => f
  | n + 1 => scalbnLoopDown R (f / R) n

/-- The `scalbn` loop `for (; exp > 0; --exp) f *= radix;` with the iteration
count made explicit. -/
def scalbnLoopUp (R : ℕ) (f : ℚ) : ℕ → ℚ
  | 0 => f
  | n + 1 => scalbnLoopUp R (f * R) n

/-- Fallback `scalbn`: returns `f` unchanged when `f` is zero or not finite;
otherwise repeatedly divides (negative exponent) or multiplies (positive
exponent) by the radix. -/
def scalbn (F : Format) (f : FP) (e : ℤ) : FP :=
  if FP.beq f (FP.fin false 0) || !(FP.le (FP.fin true F.fmax) f && FP.le f (FP.fin false F.fmax)) then f
  else
    match f with
    | FP.fin s m =>
        FP.fin s (if e < 0 then scalbnLoopDown F.radix m (-e).toNat else scalbnLoopUp F.radix m e.toNat)
    | g => g

end ConstexprCmath

/-! ## `detail::decomp_rep` and its comparator -/

/-- The decomposed floating-point representation `decomp_rep<radix, num_digits>`:
category, sign bit, digit array (most significant first), and base-radix
exponent.  The fixed-size `std::array<int, num_digits>` is modelled as a list
of length `num_digits` (the constructions below always produce that length,
zero-filling unused positions exactly as value-initialization does). -/
structure DecompRep where
  category : Category
  signbit : Bool
  digits : List ℤ
  ilogb : ℤ
deriving DecidableEq, Repr

namespace DecompRep

/-- `isnan` utility. -/
def isnanR (x : DecompRep) : Bool := x.category == .nan

/-- `isinf` utility. -/
def isinfR (x : DecompRep) : Bool := x.category == .infinite

/-- `iszero` utility. -/
def iszeroR (x : DecompRep) : Bool := x.category == .zero

/-- `ispos` utility. -/
def isposR (x : DecompRep) : Bool := !x.signbit && !isnanR x && !iszeroR x

/-- `isneg` utility. -/
def isnegR (x : DecompRep) : Bool := x.signbit && !isnanR x && !iszeroR x

/-- `isposinf` utility. -/
def isposinfR (x : DecompRep) : Bool := !x.signbit && isinfR x

/-- `isneginf` utility. -/
def isneginfR (x : DecompRep) : Bool := x.signbit && isinfR x

/-- The digit-comparison loop of the comparator: at the first differing digit
return `lhs > rhs` for negative operands and `lhs < rhs` otherwise; if no digit
differs, return false.  The C++ loop runs over the two equal-length arrays. -/
def digitsLt (neg : Bool) : List ℤ → List ℤ → Bool
  | a :: as, b :: bs => if a ≠ b then (if neg then decide (b < a) else decide (a < b)) else digitsLt neg as bs
  | _, _ => false

/-- The `operator<` comparator on decomposed representations (source lines
261-293): NaN is unordered; infinities order by sign against everything;
zeros compare equal to each other and by sign against nonzero values; finite
nonzero values order by sign, then exponent (reversed for negatives), then
digit sequence (reversed for negatives). -/
def repLt (lhs rhs : DecompRep) : Bool :=
  if isnanR lhs || isnanR rhs then false
  else if isinfR lhs || isinfR rhs then
    (isneginfR lhs && !isneginfR rhs) || (!isposinfR lhs && isposinfR rhs)
  else if iszeroR lhs || iszeroR rhs then
    (iszeroR lhs && isposR rhs) || (isnegR lhs && iszeroR rhs)
  else
    if isnegR lhs != isnegR rhs then isnegR lhs
    else
      if lhs.ilogb ≠ rhs.ilogb then
        (if isnegR lhs then decide (rhs.ilogb < lhs.ilogb) else decide (lhs.ilogb < rhs.ilogb))
      else digitsLt (isnegR lhs) lhs.digits rhs.digits

end DecompRep

/-! ## `detail::count_digits` and the codec `detail::decomp` -/

/-- The loop body of `count_digits`: `num_digits = 1; while (u >= radix) { ++num_digits; u /= radix; }`.
The guard `2 ≤ R` records that the C++ loop only terminates for a radix of at
least 2 (always true of `numeric_limits<F>::radix`). -/
def countDigitsNat (R u : ℕ) : ℕ :=
  if h : 2 ≤ R ∧ R ≤ u then countDigitsNat R (u / R) + 1 else 1
termination_by u
decreasing_by
  exact Nat.div_lt_self (by omega) (by omega)

/-- `count_digits<radix>(i)`: number of radix digits of the absolute value
(the source forms the absolute value in the unsigned counterpart type). -/
def count_digits (R : ℕ) (i : ℤ) : ℕ := countDigitsNat R i.natAbs

/-- Zero-fill a digit list on the right up to the array length `N`, exactly as
value-initialization of `std::array<int, N>` leaves unwritten positions 0. -/
def padTo (N : ℕ) (l : List ℤ) : List ℤ := l ++ List.replicate (N - l.length) 0

/-- The digit-extraction loop of `decomp(F f)`: starting from the normalized
magnitude (in `[1, radix)`), repeatedly take the integer part as the next
digit, subtract it, stop if the remainder is zero, otherwise multiply by the
radix; at most `fuel = min(F::digits, num_digits)` digits.  `static_cast<int>`
truncates toward zero, which on the nonnegative loop values is the floor. -/
def extractDigits (R : ℕ) : ℕ → ℚ → List ℤ
  | 0, _ => []
  | fuel + 1, f =>
    let digit : ℤ := ⌊f⌋
    if f - digit = 0 then [digit] else digit :: extractDigits R fuel ((f - digit) * R)

/-- The exact value `Σ_d digits[d] * radix^(-d)` of a digit list, in Horner
form.  In `operator F` the source accumulates exactly this sum as
`f += scalbn(digit, -d)`, every step exact. -/
def digitsVal (R : ℕ) : List ℤ → ℚ
  | [] => 0
  | a :: rest => (a : ℚ) + digitsVal R rest / R

/-- The constructor `decomp(F f)`: classify, record sign and `ilogb`; for
normal/subnormal values normalize the absolute value by `scalbn(f, -ilogb)` and
extract up to `min(F::digits, num_digits)` digits.  The source's
`rep.ilogb == INT_MIN` branch (a two-step rescale guarding `-ilogb` against
`int` overflow) is dead with unbounded exponents and is omitted. -/
def decompOfFP (F : Format) (N : ℕ) (f : FP) : DecompRep :=
  let cat := ConstexprCmath.fpclassify F f
  let sb := ConstexprCmath.signbit f
  let il := ConstexprCmath.ilogb F f
  if cat = .normal ∨ cat = .subnormal then
    let fabs := if sb then FP.neg f else f
    let fnorm := ConstexprCmath.scalbn F fabs (-il)
    { category := cat, signbit := sb, ilogb := il,
      digits := padTo N (extractDigits F.radix (min F.digits N) (FP.magOf fnorm)) }
  else
    { category := cat, signbit := sb, ilogb := il, digits := padTo N [] }

/-- The conversion `operator F()`: zero gives zero; for normal/subnormal, if
the exponent is at or beyond the destination's `max_exponent` the result is
infinity (the destination is asserted to have one), otherwise the first
`min(F::digits, num_digits)` digits are summed exactly and rescaled by
`scalbn(·, ilogb)`; infinity and NaN map to infinity and quiet NaN; finally the
sign is applied with `copysign(f, F(-1))`. -/
def toFP (F : Format) (N : ℕ) (rep : DecompRep) : FP :=
  let f :=
    if rep.category = .zero then FP.fin false 0
    else if rep.category = .subnormal ∨ rep.category = .normal then
      if F.maxExp ≤ rep.ilogb then FP.inf false
      else
        ConstexprCmath.scalbn F (FP.fin false (digitsVal F.radix (rep.digits.take (min F.digits N)))) rep.ilogb
    else if rep.category = .infinite then FP.inf false
    else FP.nan
  if rep.signbit then ConstexprCmath.copysign f (FP.fin true 1) else f

/-- The constructor `decomp(I i)`: category `FP_NORMAL` (or `FP_ZERO` for 0),
sign `i < 0`, exponent `count_digits(i) - 1`; the loop extracts the digits of
`|i|` least-significant first, writing position `d` only when `d < num_digits`
(so the `count_digits(i) - num_digits` least significant digits are dropped —
truncation, not rounding).  Position `d` of the most-significant-first array
receives digit `(|i| / radix^(count_digits - 1 - d)) % radix`, i.e. the array
is the reversed radix-digit list of `|i|` with positions `≥ N` dropped. -/
def decompOfInt (R : ℕ) (N : ℕ) (i : ℤ) : DecompRep :=
  if i = 0 then
    { category := .zero, signbit := decide (i < 0), digits := padTo N [], ilogb := 0 }
  else
    let idigits := count_digits R i
    let u := i.natAbs
    { category := .normal, signbit := decide (i < 0),
      digits := padTo N (((Nat.digits R u).drop (idigits - N)).reverse.map Int.ofNat),
      ilogb := (idigits : ℤ) - 1 }

/-! ## The three `in_range` entry points -/

/-- An integer type, given by its `numeric_limits` extremes. -/
structure IntType where
  lo : ℤ
  hi : ℤ
deriving DecidableEq, Repr

/-- A C++ integer type: `lowest() ≤ 0` (0 for unsigned types) and `max() ≥ 1`. -/
def IntType.Valid (I : IntType) : Prop := I.lo ≤ 0 ∧ 1 ≤ I.hi

/-- The digit capacity `in_range<I>(F)` instantiates `detail::decomp` with
(source line 462): exactly `F::digits`, the truncation of `I`'s extremes to
`F`'s precision being noted in the source comment on line 464. -/
def fdecompDigitsIF (F : Format) (_I : IntType) : ℕ := F.digits

/-- The local `dimin` of `in_range<I, F>`: `fdecomp(ilimits::lowest())`,
truncated (if needed) to `F`'s precision. -/
def diminIF (F : Format) (I : IntType) : DecompRep :=
  decompOfInt F.radix (fdecompDigitsIF F I) I.lo

/-- The local `dimax` of `in_range<I, F>`: `fdecomp(ilimits::max())`. -/
def dimaxIF (F : Format) (I : IntType) : DecompRep :=
  decompOfInt F.radix (fdecompDigitsIF F I) I.hi

/-- The local `dfmin` of `in_range<I, F>`: `fdecomp(flimits::lowest())`. -/
def dfminIF (F : Format) (I : IntType) : DecompRep :=
  decompOfFP F (fdecompDigitsIF F I) F.lowestFP

/-- The local `dfmax` of `in_range<I, F>`: `fdecomp(flimits::max())`. -/
def dfmaxIF (F : Format) (I : IntType) : DecompRep :=
  decompOfFP F (fdecompDigitsIF F I) F.maxFP

/-- The local `min_in_range` of `in_range<I, F>`: `F(std::max(dfmin, dimin))`,
where `std::max(a, b)` is `a < b ? b : a`. -/
def minInRangeIF (F : Format) (I : IntType) : FP :=
  toFP F (fdecompDigitsIF F I)
    (if DecompRep.repLt (dfminIF F I) (diminIF F I) then diminIF F I else dfminIF F I)

/-- The local `max_in_range` of `in_range<I, F>`: `F(std::min(dfmax, dimax))`,
where `std::min(a, b)` is `b < a ? b : a`. -/
def maxInRangeIF (F : Format) (I : IntType) : FP :=
  toFP F (fdecompDigitsIF F I)
    (if DecompRep.repLt (dimaxIF F I) (dfmaxIF F I) then dimaxIF F I else dfmaxIF F I)

/-- `in_range<integer I, floating_point F>(F f)` (source lines 457-471):
decompose `I::lowest()`, `I::max()`, `F::lowest()`, `F::max()` at radix
`F::radix` and capacity `F::digits`; take `min_in_range = F(std::max(dfmin, dimin))`
and `max_in_range = F(std::min(dfmax, dimax))`; return
`min_in_range <= f && f <= max_in_range` in `F`'s own (IEEE) comparison. -/
def in_range_IF (F : Format) (I : IntType) (f : FP) : Bool :=
  FP.le (minInRangeIF F I) f && FP.le f (maxInRangeIF F I)

/-- The digit capacity `in_range<F>(I)` instantiates `detail::decomp` with
(source lines 483-487): `max({F::digits, count_digits(imin), count_digits(imax)})`,
accommodating all finite values of either type. -/
def fdecompDigitsFI (F : Format) (I : IntType) : ℕ :=
  max F.digits (max (count_digits F.radix I.lo) (count_digits F.radix I.hi))

/-- The C++ conversion of a floating-point value to an integer type: truncation
toward zero (defined behavior whenever the truncated value is in range, which
is the case at every use in the source). -/
def intOfFPTrunc (f : FP) : ℤ :=
  match f with
  | FP.fin s m => if s then -⌊m⌋ else ⌊m⌋
  | _ => 0

/-- The local `dimin` of `in_range<F, I>`: `fdecomp(imin)` (exact at this
capacity). -/
def diminFI (F : Format) (I : IntType) : DecompRep :=
  decompOfInt F.radix (fdecompDigitsFI F I) I.lo

/-- The local `dimax` of `in_range<F, I>`: `fdecomp(imax)`. -/
def dimaxFI (F : Format) (I : IntType) : DecompRep :=
  decompOfInt F.radix (fdecompDigitsFI F I) I.hi

/-- The local `dfmin` of `in_range<F, I>`: `fdecomp(fmin)`. -/
def dfminFI (F : Format) (I : IntType) : DecompRep :=
  decompOfFP F (fdecompDigitsFI F I) F.lowestFP

/-- The local `dfmax` of `in_range<F, I>`: `fdecomp(fmax)`. -/
def dfmaxFI (F : Format) (I : IntType) : DecompRep :=
  decompOfFP F (fdecompDigitsFI F I) F.maxFP

/-- `min_in_range` of `in_range<floating_point F, integer I>(I i)` (source line
498): `dimin < dfmin ? I(fmin) : imin`. -/
def minInRangeFI (F : Format) (I : IntType) : ℤ :=
  if DecompRep.repLt (diminFI F I) (dfminFI F I) then intOfFPTrunc F.lowestFP else I.lo

/-- `max_in_range` of `in_range<floating_point F, integer I>(I i)` (source line
499): `dfmax < dimax ? I(fmax) : imax`. -/
def maxInRangeFI (F : Format) (I : IntType) : ℤ :=
  if DecompRep.repLt (dfmaxFI F I) (dimaxFI F I) then intOfFPTrunc F.maxFP else I.hi

/-- `in_range<floating_point F, integer I>(I i)` (source lines 474-505):
`min_in_range <= i && i <= max_in_range` in the integer domain. -/
def in_range_FI (F : Format) (I : IntType) (i : ℤ) : Bool :=
  decide (minInRangeFI F I ≤ i) && decide (i ≤ maxInRangeFI F I)

/-- The digit capacity `in_range<Dst, Src>` instantiates `detail::decomp` with
(source line 516): `max(Dst::digits, Src::digits)`. -/
def fdecompDigitsFF (Dst Src : Format) : ℕ := max Dst.digits Src.digits

/-- The local `min_in_range` of `in_range<Dst, Src>`: `Src(std::max(dmin, smin))`. -/
def minInRangeFF (Dst Src : Format) : FP :=
  let N := fdecompDigitsFF Dst Src
  let dmin := decompOfFP Dst N Dst.lowestFP
  let smin := decompOfFP Src N Src.lowestFP
  toFP Src N (if DecompRep.repLt dmin smin then smin else dmin)

/-- The local `max_in_range` of `in_range<Dst, Src>`: `Src(std::min(dmax, smax))`. -/
def maxInRangeFF (Dst Src : Format) : FP :=
  let N := fdecompDigitsFF Dst Src
  let dmax := decompOfFP Dst N Dst.maxFP
  let smax := decompOfFP Src N Src.maxFP
  toFP Src N (if DecompRep.repLt smax dmax then smax else dmax)

/-- `in_range<floating_point Dst, floating_point Src>(Src f)` (source lines
509-526): requires (statically) equal radices; capacity
`max(Dst::digits, Src::digits)`; bounds `Src(std::max(dmin, smin))` and
`Src(std::min(dmax, smax))`; returns `min_in_range <= f && f <= max_in_range`. -/
def in_range_FF (Dst Src : Format) (f : FP) : Bool :=
  FP.le (minInRangeFF Dst Src) f && FP.le f (maxInRangeFF Dst Src)

/-- The truncated magnitude of `I.hi` at `F`'s precision (the value of the
`dimax` representation used by `in_range<I, F>`). -/
def truncHi (F : Format) (I : IntType) : ℚ :=
  ((I.hi.natAbs - I.hi.natAbs % F.radix ^ (count_digits F.radix I.hi - F.digits) : ℕ) : ℚ)

/-- The truncated magnitude of `I.lo` at `F`'s precision. -/
def truncLo (F : Format) (I : IntType) : ℚ :=
  ((I.lo.natAbs - I.lo.natAbs % F.radix ^ (count_digits F.radix I.lo - F.digits) : ℕ) : ℚ)

/-- A value of the floating-point type `F` in the exact-value model: NaN, an
infinity, or a finite value whose magnitude is representable in `F`. -/
def Format.IsVal (F : Format) : FP → Prop
  | FP.nan => True
  | FP.inf _ => True
  | FP.fin _ m => F.RepMag m

/-- The final branch of the comparator (`operator<` on two finite nonzero
operands of equal sign): exponent comparison, reversed for negatives, then the
digit loop. -/
def innerLt (n : Bool) (a b : DecompRep) : Bool :=
  if a.ilogb ≠ b.ilogb then
    (if n then decide (b.ilogb < a.ilogb) else decide (a.ilogb < b.ilogb))
  else DecompRep.digitsLt n a.digits b.digits

/-- The sign/category rank implicit in the comparator's branch structure:
`-inf < negatives < zeros < positives < +inf`. -/
def rankR (x : DecompRep) : ℕ :=
  if DecompRep.isneginfR x then 0
  else if DecompRep.isinfR x then 4
  else if DecompRep.isnegR x then 1
  else if DecompRep.iszeroR x then 2
  else 3

/-! ## Spec-modelled platform `std::` primitives (for the agreement claim)

The platform implementations are not part of the repository; the spec requires
the fallback and platform paths to agree on all finite, infinite and zero
inputs (NaN sign excluded, NaN category included).  They are modelled from the
spec as the ideal IEEE primitives in exact-value semantics. -/

/-- Modelled from the spec: the platform `std::signbit`, the sign bit of the
value (NaN sign implementation-defined, modelled unsigned). -/
def stdSignbit (f : FP) : Bool := f.sign

/-- Modelled from the spec: the platform `std::copysign`, the magnitude of `f`
with the sign of `s`. -/
def stdCopysign (f s : FP) : FP :=
  match f with
  | FP.nan => FP.nan
  | FP.inf _ => FP.inf s.sign
  | FP.fin _ m => FP.fin s.sign m

/-- Modelled from the spec: the platform `std::fpclassify`, classifying by
category and magnitude thresholds. -/
def stdFpclassify (F : Format) (f : FP) : Category :=
  match f with
  | FP.nan => .nan
  | FP.inf _ => .infinite
  | FP.fin _ m => if m = 0 then .zero else if m < F.fminNormal then .subnormal else .normal

/-- Modelled from the spec: the platform `std::ilogb`, the integer `e` with
`radix^e ≤ |f| < radix^(e+1)` for finite nonzero `f`, with the standard
sentinels for zero, infinity and NaN. -/
def stdIlogb (F : Format) (f : FP) : ℤ :=
  match f with
  | FP.nan => FP_ILOGBNAN
  | FP.inf _ => INT_MAX
  | FP.fin _ m => if m = 0 then FP_ILOGB0 else Int.log F.radix m

/-- Modelled from the spec: the platform `std::scalbn` in exact-value
semantics, rescaling a finite value by `radix^e`. -/
def stdScalbn (F : Format) (f : FP) (e : ℤ) : FP :=
  match f with
  | FP.fin s m => FP.fin s (m * (F.radix : ℚ) ^ e)
  | g => g

/-! ## Concrete formats and integer types used by witnesses -/

/-- IEEE binary32 (`float`): radix 2, 24 digits, exponents [-125, 128]. -/
def binary32 : Format := ⟨2, 24, -125, 128⟩

/-- IEEE binary64 (`double`): radix 2, 53 digits, exponents [-1021, 1024]. -/
def binary64 : Format := ⟨2, 53, -1021, 1024⟩

/-- IEEE binary16 (`half`): radix 2, 11 digits, exponents [-13, 16]. -/
def binary16 : Format := ⟨2, 11, -13, 16⟩

/-- `int32_t`. -/
def int32 : IntType := ⟨-(2 ^ 31), 2 ^ 31 - 1⟩

/-- `int64_t`. -/
def int64 : IntType := ⟨-(2 ^ 63), 2 ^ 63 - 1⟩

/-- A tiny IEEE-like format used to exercise theorems on small inputs:
radix 2, 3 digits, exponents [-1, 4] (so `max() = 7 * 2 = 14`). -/
def tinyFmt : Format := ⟨2, 3, -1, 4⟩

/-- A tiny integer type (range [-4, 3]). -/
def tinyInt : IntType := ⟨-4, 3⟩

/-! ## Basic facts about formats -/

namespace Format

variable {F : Format}

lemma radix_q_two_le (hF : F.Valid) : (2 : ℚ) ≤ F.radix := by
  exact_mod_cast hF.1

lemma radix_q_one_lt (hF : F.Valid) : (1 : ℚ) < F.radix := by
  have := radix_q_two_le hF
  linarith

lemma radix_q_pos (hF : F.Valid) : (0 : ℚ) < F.radix := lt_trans one_pos (radix_q_one_lt hF)

/-- Splitting a power: `r^a * r^(b - a) = r^b`. -/
lemma zpow_mul_sub {r : ℚ} (hr : r ≠ 0) (a b : ℤ) : r ^ a * r ^ (b - a) = r ^ b := by
  rw [← zpow_add₀ hr]
  congr 1
  ring

lemma fmax_eq_zpow : F.fmax = ((F.radix : ℚ) ^ (F.digits : ℤ) - 1) * (F.radix : ℚ) ^ (F.maxExp - F.digits) := by
  rw [Format.fmax, zpow_natCast]

lemma one_le_zpow_digits_sub_one (hF : F.Valid) : (1 : ℚ) ≤ (F.radix : ℚ) ^ ((F.digits : ℤ) - 1) :=
  one_le_zpow₀ (le_of_lt (radix_q_one_lt hF)) (by have := hF.2.1; omega)

lemma zpow_digits_sub_one_le (hF : F.Valid) :
    (F.radix : ℚ) ^ ((F.digits : ℤ) - 1) ≤ (F.radix : ℚ) ^ (F.digits : ℤ) - 1 := by
  have hR := radix_q_two_le hF
  have h1 := one_le_zpow_digits_sub_one hF
  have h2 : (F.radix : ℚ) ^ ((F.digits : ℤ) - 1) * (F.radix : ℚ) = (F.radix : ℚ) ^ (F.digits : ℤ) := by
    have hsp : (F.radix : ℚ) ^ ((F.digits : ℤ) - 1) * (F.radix : ℚ) ^ ((F.digits : ℤ) - ((F.digits : ℤ) - 1)) = (F.radix : ℚ) ^ (F.digits : ℤ) :=
      zpow_mul_sub (by linarith) ((F.digits : ℤ) - 1) (F.digits : ℤ)
    simpa using hsp
  nlinarith

lemma fmax_pos (hF : F.Valid) : 0 < F.fmax := by
  rw [fmax_eq_zpow]
  have h1 := one_le_zpow_digits_sub_one hF
  have h2 := zpow_digits_sub_one_le hF
  exact mul_pos (by linarith) (zpow_pos (radix_q_pos hF) _)

lemma fmax_lt_zpow_maxExp (hF : F.Valid) : F.fmax < (F.radix : ℚ) ^ F.maxExp := by
  rw [fmax_eq_zpow]
  have hp := zpow_pos (radix_q_pos hF) (F.maxExp - F.digits)
  have hkey : ((F.radix : ℚ) ^ (F.digits : ℤ) - 1) * (F.radix : ℚ) ^ (F.maxExp - F.digits) <
      (F.radix : ℚ) ^ (F.digits : ℤ) * (F.radix : ℚ) ^ (F.maxExp - F.digits) :=
    mul_lt_mul_of_pos_right (by linarith) hp
  rw [zpow_mul_sub (ne_of_gt (radix_q_pos hF))] at hkey
  exact hkey

lemma zpow_maxExp_sub_one_le_fmax (hF : F.Valid) :
    (F.radix : ℚ) ^ (F.maxExp - 1) ≤ F.fmax := by
  rw [fmax_eq_zpow]
  have h2 := zpow_digits_sub_one_le hF
  have hp := zpow_pos (radix_q_pos hF) (F.maxExp - F.digits)
  have hkey : (F.radix : ℚ) ^ ((F.digits : ℤ) - 1) * (F.radix : ℚ) ^ (F.maxExp - F.digits) ≤
      ((F.radix : ℚ) ^ (F.digits : ℤ) - 1) * (F.radix : ℚ) ^ (F.maxExp - F.digits) :=
    mul_le_mul_of_nonneg_right h2 (le_of_lt hp)
  have hsplit : (F.radix : ℚ) ^ ((F.digits : ℤ) - 1) * (F.radix : ℚ) ^ (F.maxExp - F.digits) =
      (F.radix : ℚ) ^ (F.maxExp - 1) := by
    rw [← zpow_add₀ (ne_of_gt (radix_q_pos hF))]
    congr 1
    ring
  rw [hsplit] at hkey
  exact hkey

lemma log_fmax (hF : F.Valid) : Int.log F.radix F.fmax = F.maxExp - 1 := by
  have hb : 1 < F.radix := by have := hF.1; omega
  have hpos := fmax_pos hF
  have h1 : F.maxExp - 1 ≤ Int.log F.radix F.fmax :=
    (Int.zpow_le_iff_le_log hb hpos).mp (zpow_maxExp_sub_one_le_fmax hF)
  have h2 : Int.log F.radix F.fmax < F.maxExp := by
    have := (Int.lt_zpow_iff_log_lt hb hpos).mp (fmax_lt_zpow_maxExp hF)
    exact this
  omega

lemma RepMag.nonneg {m : ℚ} (h : F.RepMag m) : 0 ≤ m := by
  obtain ⟨k, e, rfl, -, -, -⟩ := h
  positivity

lemma RepMag.le_fmax (hF : F.Valid) {m : ℚ} (h : F.RepMag m) : m ≤ F.fmax := by
  obtain ⟨k, e, rfl, hk, -, he⟩ := h
  rw [fmax_eq_zpow]
  have hkq : (k : ℚ) ≤ (F.radix : ℚ) ^ (F.digits : ℤ) - 1 := by
    have : (k : ℚ) + 1 ≤ (F.radix : ℚ) ^ (F.digits : ℤ) := by
      rw [zpow_natCast]
      exact_mod_cast Nat.succ_le_of_lt hk
    linarith
  have hze : (F.radix : ℚ) ^ e ≤ (F.radix : ℚ) ^ (F.maxExp - F.digits) :=
    zpow_le_zpow_right₀ (le_of_lt (radix_q_one_lt hF)) he
  exact mul_le_mul hkq hze (le_of_lt (zpow_pos (radix_q_pos hF) e))
    (le_trans (le_trans zero_le_one (one_le_zpow_digits_sub_one hF)) (zpow_digits_sub_one_le hF))

lemma RepMag.fmax_repMag (hF : F.Valid) : F.RepMag F.fmax := by
  refine ⟨F.radix ^ F.digits - 1, F.maxExp - F.digits, ?_, ?_, ?_, le_refl _⟩
  · rw [fmax_eq_zpow]
    congr 1
    have : 1 ≤ F.radix ^ F.digits := Nat.one_le_pow _ _ (by have := hF.1; omega)
    push_cast [Nat.cast_sub this]
    rw [zpow_natCast]
  · have : 1 ≤ F.radix ^ F.digits := Nat.one_le_pow _ _ (by have := hF.1; omega)
    omega
  · have := hF.2.2.1
    omega

lemma RepMag.zero_repMag (hF : F.Valid) : F.RepMag 0 := by
  refine ⟨0, F.maxExp - F.digits, by norm_num, ?_, ?_, le_refl _⟩
  · exact Nat.pos_pow_of_pos _ (by have := hF.1; omega)
  · have := hF.2.2.1
    omega

end Format

/-! ## Evaluation of the fallback primitives on proper values -/

namespace ConstexprCmath

lemma signbit_fin_pos {s : Bool} {m : ℚ} (hm : 0 < m) : signbit (FP.fin s m) = s := by
  cases s <;>
    simp [signbit, FP.lt, FP.beq, not_lt.mpr hm.le, hm.ne', neg_neg, neg_lt_zero, hm, not_lt.mpr hm.le]

lemma signbit_fin_zero (s : Bool) : signbit (FP.fin s 0) = s := by
  cases s <;> simp [signbit, FP.lt, FP.beq]

lemma signbit_inf (s : Bool) : signbit (FP.inf s) = s := by
  cases s <;> simp [signbit, FP.lt, FP.beq]

lemma signbit_nan : signbit FP.nan = false := by
  simp [signbit, FP.lt, FP.beq]

lemma neg_fin (s : Bool) (m : ℚ) : FP.neg (FP.fin s m) = FP.fin (!s) m := rfl

lemma copysign_negone (f : FP) : copysign f (FP.fin true 1) = if signbit f then f else FP.neg f := by
  have h1 : signbit (FP.fin true 1) = true := signbit_fin_pos one_pos
  rw [copysign, h1]
  cases h : signbit f <;> simp [h]

lemma scalbnLoopDown_eval (R : ℕ) (f : ℚ) (n : ℕ) : scalbnLoopDown R f n = f / (R : ℚ) ^ n := by
  induction n generalizing f with
  | zero => simp [scalbnLoopDown]
  | succ n ih =>
      rw [scalbnLoopDown, ih, div_div]
      congr 1
      ring

lemma scalbnLoopUp_eval (R : ℕ) (f : ℚ) (n : ℕ) : scalbnLoopUp R f n = f * (R : ℚ) ^ n := by
  induction n generalizing f with
  | zero => simp [scalbnLoopUp]
  | succ n ih =>
      rw [scalbnLoopUp, ih]
      ring

/-- On a positive finite value of the format, the fallback `scalbn` is the
exact rescale by `radix^e`. -/
lemma scalbn_fin_eval {F : Format} (hF : F.Valid) (s : Bool) {m : ℚ} (hm : 0 < m)
    (hle : m ≤ F.fmax) (e : ℤ) :
    scalbn F (FP.fin s m) e = FP.fin s (m * (F.radix : ℚ) ^ e) := by
  have hfmax := Format.fmax_pos hF
  have hguard : (FP.beq (FP.fin s m) (FP.fin false 0) ||
      !(FP.le (FP.fin true F.fmax) (FP.fin s m) && FP.le (FP.fin s m) (FP.fin false F.fmax))) = false := by
    cases s <;> simp [FP.beq, FP.le, hm.ne'] <;> constructor <;> linarith
  rw [scalbn, hguard]
  simp only [Bool.false_eq_true, if_false]
  rcases lt_or_le e 0 with he | he
  · rw [if_pos he, scalbnLoopDown_eval]
    congr 1
    rw [div_eq_mul_inv, ← zpow_natCast, Int.toNat_of_nonneg (by omega), ← zpow_neg, neg_neg]
  · rw [if_neg (not_lt.mpr he), scalbnLoopUp_eval]
    congr 1
    rw [← zpow_natCast, Int.toNat_of_nonneg he]

lemma ilogbLoopUp_spec (R : ℕ) (hR : 2 ≤ R) : ∀ (f : ℚ), 0 < f →
    ∃ k : ℕ, ilogbLoopUp R f = (f * (R : ℚ) ^ k, -(k : ℤ)) ∧ 1 ≤ f * (R : ℚ) ^ k := by
  intro f
  induction f using ilogbLoopUp.induct R with
  | case1 f h ih =>
      intro _
      obtain ⟨k, hk, hk1⟩ := ih (mul_pos h.2.1 (by exact_mod_cast Nat.lt_of_lt_of_le Nat.zero_lt_two h.1))
      refine ⟨k + 1, ?_, ?_⟩
      · rw [ilogbLoopUp, dif_pos h, hk]
        simp only [Prod.mk.injEq]
        refine ⟨by ring, by push_cast; ring⟩
      · calc (1 : ℚ) ≤ f * (R : ℚ) * (R : ℚ) ^ k := hk1
        _ = f * (R : ℚ) ^ (k + 1) := by ring
  | case2 f h =>
      intro hf
      rw [ilogbLoopUp, dif_neg h]
      have hf1 : 1 ≤ f := by
        by_contra hc
        exact h ⟨hR, hf, not_le.mp hc⟩
      exact ⟨0, by simp, by simpa using hf1⟩

lemma ilogbLoopDown_spec (R : ℕ) (hR : 2 ≤ R) : ∀ (f : ℚ),
    ∃ k : ℕ, ilogbLoopDown R f = (f / (R : ℚ) ^ k, (k : ℤ)) ∧ f / (R : ℚ) ^ k < R ∧
      (1 ≤ f → 1 ≤ f / (R : ℚ) ^ k) := by
  intro f
  induction f using ilogbLoopDown.induct R with
  | case1 f h ih =>
      have hRq1 : (1 : ℚ) < R := by exact_mod_cast Nat.lt_of_lt_of_le Nat.one_lt_two h.1
      obtain ⟨k, hk, hklt, hk1⟩ := ih
      have hsplit : f / (R : ℚ) ^ (k + 1) = f / (R : ℚ) / (R : ℚ) ^ k := by
        rw [div_div, ← pow_succ']
      refine ⟨k + 1, ?_, ?_, ?_⟩
      · rw [ilogbLoopDown, dif_pos h, hk]
        simp only [Prod.mk.injEq]
        exact ⟨hsplit.symm, by push_cast; ring⟩
      · rw [hsplit]
        exact hklt
      · intro _
        have h1 : 1 ≤ f / (R : ℚ) := by
          rw [le_div_iff₀ (by linarith)]
          simpa using h.2
        rw [hsplit]
        exact hk1 h1
  | case2 f h =>
      rw [ilogbLoopDown, dif_neg h]
      have hfR : f < R := by
        by_contra hc
        exact h ⟨hR, not_lt.mp hc⟩
      exact ⟨0, by simp, by simpa using hfR, by simp⟩

/-- On a positive finite value of the format, the fallback `ilogb` computes
`Int.log radix m`, the floor of the base-radix logarithm. -/
lemma ilogb_fin_eval {F : Format} (hF : F.Valid) (s : Bool) {m : ℚ} (hm : 0 < m)
    (hle : m ≤ F.fmax) :
    ilogb F (FP.fin s m) = Int.log F.radix m := by
  have hfmax := Format.fmax_pos hF
  have hb : 1 < F.radix := by have := hF.1; omega
  have hRq : (1 : ℚ) < F.radix := Format.radix_q_one_lt hF
  have hbeq : FP.beq (FP.fin s m) (FP.fin false 0) = false := by
    cases s <;> simp [FP.beq, hm.ne']
  have hfinite : (FP.le (FP.fin true F.fmax) (FP.fin s m) && FP.le (FP.fin s m) (FP.fin false F.fmax)) = true := by
    cases s <;> simp [FP.le] <;> constructor <;> linarith
  rw [ilogb, hbeq]
  simp only [Bool.false_eq_true, if_false, hfinite, if_true]
  have habs : (if FP.lt (FP.fin s m) (FP.fin false 0) then FP.neg (FP.fin s m) else FP.fin s m).magOf = m := by
    cases s <;> simp [FP.lt, FP.neg, FP.magOf, hm, not_lt.mpr hm.le]
  rw [habs]
  obtain ⟨k1, hk1, hk1ge⟩ := ilogbLoopUp_spec F.radix hF.1 m hm
  rw [hk1]
  obtain ⟨k2, hk2, hk2lt, hk2ge⟩ := ilogbLoopDown_spec F.radix hF.1 (m * (F.radix : ℚ) ^ k1)
  rw [hk2]
  simp only
  have hRpos := Format.radix_q_pos hF
  have hRne := ne_of_gt hRpos
  have hval : m * (F.radix : ℚ) ^ k1 / (F.radix : ℚ) ^ k2 = m * (F.radix : ℚ) ^ ((k1 : ℤ) - (k2 : ℤ)) := by
    rw [zpow_sub₀ hRne, ← zpow_natCast (F.radix : ℚ) k1, ← zpow_natCast (F.radix : ℚ) k2,
      mul_div_assoc]
  have hge := hk2ge hk1ge
  rw [hval] at hk2lt hge
  have hzero : (k1 : ℤ) - (k2 : ℤ) + ((k2 : ℤ) - (k1 : ℤ)) = 0 := by ring
  have hz2 := zpow_pos hRpos ((k2 : ℤ) - (k1 : ℤ))
  have hlow : (F.radix : ℚ) ^ ((k2 : ℤ) - (k1 : ℤ)) ≤ m := by
    have hmul := mul_le_mul_of_nonneg_right hge (le_of_lt hz2)
    rw [one_mul, mul_assoc, ← zpow_add₀ hRne, hzero, zpow_zero, mul_one] at hmul
    exact hmul
  have hhigh : m < (F.radix : ℚ) ^ ((k2 : ℤ) - (k1 : ℤ) + 1) := by
    have hmul := mul_lt_mul_of_pos_right hk2lt hz2
    rw [mul_assoc, ← zpow_add₀ hRne, hzero, zpow_zero, mul_one] at hmul
    calc m < (F.radix : ℚ) * (F.radix : ℚ) ^ ((k2 : ℤ) - (k1 : ℤ)) := hmul
    _ = (F.radix : ℚ) ^ ((k2 : ℤ) - (k1 : ℤ) + 1) := by
        rw [zpow_add_one₀ hRne]
        ring
  have hup : (k2 : ℤ) - (k1 : ℤ) ≤ Int.log F.radix m := (Int.zpow_le_iff_le_log hb hm).mp hlow
  have hdown : Int.log F.radix m < (k2 : ℤ) - (k1 : ℤ) + 1 := (Int.lt_zpow_iff_log_lt hb hm).mp hhigh
  omega

lemma ilogb_fin_zero (F : Format) (s : Bool) : ilogb F (FP.fin s 0) = FP_ILOGB0 := by
  have : FP.beq (FP.fin s 0) (FP.fin false 0) = true := by
    cases s <;> simp [FP.beq]
  rw [ilogb, this]
  simp

lemma ilogb_inf (F : Format) (s : Bool) : ilogb F (FP.inf s) = INT_MAX := by
  rw [ilogb]
  cases s <;> simp [FP.beq, FP.le]

lemma ilogb_nan (F : Format) : ilogb F FP.nan = FP_ILOGBNAN := by
  rw [ilogb]
  simp [FP.beq, FP.le]

/-- On a positive finite value of the format, the fallback `fpclassify`
distinguishes subnormal from normal at the `min()` threshold. -/
lemma fpclassify_fin_eval {F : Format} (hF : F.Valid) (s : Bool) {m : ℚ} (hm : 0 < m)
    (hle : m ≤ F.fmax) :
    fpclassify F (FP.fin s m) = if m < F.fminNormal then Category.subnormal else Category.normal := by
  have hfmax := Format.fmax_pos hF
  have hminpos : 0 < F.fminNormal := zpow_pos (Format.radix_q_pos hF) _
  have hbeq : FP.beq (FP.fin s m) (FP.fin false 0) = false := by
    cases s <;> simp [FP.beq, hm.ne']
  rw [fpclassify, hbeq]
  simp only [Bool.false_eq_true, if_false]
  rcases lt_or_le m F.fminNormal with hsub | hnorm
  · have hcond : (FP.lt (FP.fin true F.fminNormal) (FP.fin s m) && FP.lt (FP.fin s m) (FP.fin false F.fminNormal)) = true := by
      cases s <;> simp [FP.lt] <;> constructor <;> linarith
    rw [hcond]
    simp [hsub]
  · have hcond : (FP.lt (FP.fin true F.fminNormal) (FP.fin s m) && FP.lt (FP.fin s m) (FP.fin false F.fminNormal)) = false := by
      cases s <;> simp [FP.lt] <;> intro h <;> linarith
    have hcond2 : (FP.le (FP.fin true F.fmax) (FP.fin s m) && FP.le (FP.fin s m) (FP.fin false F.fmax)) = true := by
      cases s <;> simp [FP.le] <;> constructor <;> linarith
    rw [hcond]
    simp only [Bool.false_eq_true, if_false, hcond2, if_true]
    simp [not_lt.mpr hnorm]

lemma fpclassify_fin_zero (F : Format) (s : Bool) : fpclassify F (FP.fin s 0) = Category.zero := by
  have : FP.beq (FP.fin s 0) (FP.fin false 0) = true := by
    cases s <;> simp [FP.beq]
  rw [fpclassify, this]
  simp

lemma fpclassify_inf (F : Format) (s : Bool) : fpclassify F (FP.inf s) = Category.infinite := by
  rw [fpclassify]
  cases s <;> simp [FP.beq, FP.lt, FP.le]

lemma fpclassify_nan (F : Format) : fpclassify F FP.nan = Category.nan := by
  rw [fpclassify]
  simp [FP.beq, FP.lt, FP.le]

end ConstexprCmath

/-! ## Digit lists: values, bounds, padding -/

lemma digitsVal_append (R : ℕ) (l1 l2 : List ℤ) :
    digitsVal R (l1 ++ l2) = digitsVal R l1 + digitsVal R l2 / (R : ℚ) ^ l1.length := by
  induction l1 with
  | nil => simp [digitsVal]
  | cons a l ih =>
      rw [List.cons_append, digitsVal, ih, digitsVal, List.length_cons]
      ring

lemma digitsVal_replicate_zero (R : ℕ) (n : ℕ) : digitsVal R (List.replicate n 0) = 0 := by
  induction n with
  | zero => simp [digitsVal]
  | succ n ih => rw [List.replicate_succ, digitsVal, ih]; simp

lemma digitsVal_padTo (R N : ℕ) (l : List ℤ) : digitsVal R (padTo N l) = digitsVal R l := by
  rw [padTo, digitsVal_append, digitsVal_replicate_zero]
  simp

lemma digitsVal_zero_of_all_zero (R : ℕ) (l : List ℤ) (h : ∀ d ∈ l, d = 0) :
    digitsVal R l = 0 := by
  induction l with
  | nil => rfl
  | cons a as ih =>
      have ha : a = 0 := h a (List.mem_cons_self a as)
      have has : ∀ d ∈ as, d = 0 := fun d hd => h d (List.mem_cons_of_mem a hd)
      rw [digitsVal, ih has, ha]
      simp

lemma digitsVal_take_of_drop_zero (R : ℕ) (l : List ℤ) (k : ℕ)
    (h : ∀ d ∈ l.drop k, d = 0) : digitsVal R (l.take k) = digitsVal R l := by
  conv_rhs => rw [← List.take_append_drop k l]
  rw [digitsVal_append, digitsVal_zero_of_all_zero R (l.drop k) h]
  simp

lemma padTo_drop_zero (N k : ℕ) (l : List ℤ) (hlen : l.length ≤ k) :
    ∀ d ∈ (padTo N l).drop k, d = 0 := by
  intro d hd
  rw [padTo, List.drop_append_eq_append_drop, List.drop_eq_nil_of_le hlen,
    List.nil_append] at hd
  exact List.eq_of_mem_replicate (List.mem_of_mem_drop hd)

lemma digitsVal_nonneg (R : ℕ) (l : List ℤ) (h : ∀ d ∈ l, 0 ≤ d) : 0 ≤ digitsVal R l := by
  induction l with
  | nil => simp [digitsVal]
  | cons a rest ih =>
      rw [digitsVal]
      have ha : (0 : ℚ) ≤ a := by exact_mod_cast h a (List.mem_cons_self a rest)
      have hr : 0 ≤ digitsVal R rest := ih (fun d hd => h d (List.mem_cons_of_mem a hd))
      have : (0 : ℚ) ≤ digitsVal R rest / R := div_nonneg hr (Nat.cast_nonneg R)
      linarith

lemma digitsVal_lt_radix (R : ℕ) (hR : 1 ≤ R) (l : List ℤ) (h : ∀ d ∈ l, d < R) :
    digitsVal R l < R := by
  have hRq : (0 : ℚ) < R := by exact_mod_cast Nat.lt_of_lt_of_le Nat.zero_lt_one hR
  induction l with
  | nil => simpa [digitsVal] using hRq
  | cons a rest ih =>
      rw [digitsVal]
      have ha : (a : ℚ) ≤ (R : ℚ) - 1 := by
        have := h a (List.mem_cons_self a rest)
        have : a ≤ (R : ℤ) - 1 := by omega
        push_cast at this ⊢
        exact_mod_cast this
      have hr : digitsVal R rest < R := ih (fun d hd => h d (List.mem_cons_of_mem a hd))
      have : digitsVal R rest / R < 1 := (div_lt_one hRq).mpr hr
      linarith

lemma digitsVal_head_ge_one (R : ℕ) (l : List ℤ) (hne : l ≠ []) (hh : 1 ≤ l.headI)
    (h0 : ∀ d ∈ l, 0 ≤ d) : 1 ≤ digitsVal R l := by
  cases l with
  | nil => exact absurd rfl hne
  | cons a rest =>
      rw [digitsVal]
      have ha : (1 : ℚ) ≤ a := by exact_mod_cast hh
      have hr : 0 ≤ digitsVal R rest := digitsVal_nonneg R rest (fun d hd => h0 d (List.mem_cons_of_mem a hd))
      have : (0 : ℚ) ≤ digitsVal R rest / R := div_nonneg hr (Nat.cast_nonneg R)
      linarith

/-- A digit list of length at most `k` with digits below the radix has value at
most `radix - radix^(1-k)` (so in particular below `max()` for `k ≤ digits`). -/
lemma digitsVal_le_of_len (R : ℕ) (hR : 2 ≤ R) (l : List ℤ) (h : ∀ d ∈ l, 0 ≤ d ∧ d < R) :
    ∀ k : ℕ, l.length ≤ k → digitsVal R l ≤ (R : ℚ) - (R : ℚ) ^ (1 - (k : ℤ)) := by
  have hRq : (1 : ℚ) < R := by exact_mod_cast Nat.lt_of_lt_of_le Nat.one_lt_two hR
  have hRpos : (0 : ℚ) < R := lt_trans one_pos hRq
  induction l with
  | nil =>
      intro k _
      rw [digitsVal]
      have : (R : ℚ) ^ (1 - (k : ℤ)) ≤ (R : ℚ) ^ (1 : ℤ) :=
        zpow_le_zpow_right₀ (le_of_lt hRq) (by omega)
      simp only [zpow_one] at this
      linarith
  | cons a rest ih =>
      intro k hk
      rcases k with - | k0
      · simp at hk
      rw [digitsVal]
      have ha : (a : ℚ) ≤ (R : ℚ) - 1 := by
        have := (h a (List.mem_cons_self a rest)).2
        have h2 : a ≤ (R : ℤ) - 1 := by omega
        exact_mod_cast h2
      have hrest := ih (fun d hd => h d (List.mem_cons_of_mem a hd)) k0 (by simpa using hk)
      have hdiv : digitsVal R rest / R ≤ ((R : ℚ) - (R : ℚ) ^ (1 - (k0 : ℤ))) / R :=
        div_le_div_of_nonneg_right hrest (le_of_lt hRpos)
      have hsplit : ((R : ℚ) - (R : ℚ) ^ (1 - (k0 : ℤ))) / R = 1 - (R : ℚ) ^ (1 - ((k0 : ℤ) + 1)) := by
        rw [sub_div, div_self (ne_of_gt hRpos)]
        congr 1
        rw [div_eq_mul_inv, ← zpow_neg_one, ← zpow_add₀ (ne_of_gt hRpos)]
        congr 1
        ring
      rw [hsplit] at hdiv
      have : ((k0 : ℤ) + 1) = ((k0 + 1 : ℕ) : ℤ) := by push_cast; ring
      rw [this] at hdiv
      linarith

lemma padTo_length (N : ℕ) (l : List ℤ) (h : l.length ≤ N) : (padTo N l).length = N := by
  simp only [padTo, List.length_append, List.length_replicate]
  omega

lemma padTo_headI (N : ℕ) (l : List ℤ) (h : l ≠ []) : (padTo N l).headI = l.headI := by
  cases l with
  | nil => exact absurd rfl h
  | cons a rest => simp [padTo]

lemma padTo_ne_nil (N : ℕ) (l : List ℤ) (h : l ≠ []) : padTo N l ≠ [] := by
  cases l with
  | nil => exact absurd rfl h
  | cons a rest => simp [padTo]

lemma padTo_mem (N : ℕ) (l : List ℤ) (d : ℤ) (hd : d ∈ padTo N l) : d ∈ l ∨ d = 0 := by
  rcases List.mem_append.mp hd with h | h
  · exact Or.inl h
  · exact Or.inr (List.eq_of_mem_replicate h)

/-! ## Digit extraction lemmas -/

lemma extractDigits_length (R : ℕ) : ∀ (fuel : ℕ) (q : ℚ), (extractDigits R fuel q).length ≤ fuel := by
  intro fuel
  induction fuel with
  | zero => intro q; simp [extractDigits]
  | succ fuel ih =>
      intro q
      rw [extractDigits]
      split
      · simp
      · simpa using ih ((q - ⌊q⌋) * R)

lemma extractDigits_ne_nil (R : ℕ) (fuel : ℕ) (q : ℚ) (h : fuel ≠ 0) :
    extractDigits R fuel q ≠ [] := by
  rcases fuel with - | fuel
  · exact absurd rfl h
  · rw [extractDigits]
    split <;> simp

lemma extractDigits_headI (R : ℕ) (fuel : ℕ) (q : ℚ) (h : fuel ≠ 0) :
    (extractDigits R fuel q).headI = ⌊q⌋ := by
  rcases fuel with - | fuel
  · exact absurd rfl h
  · rw [extractDigits]
    split <;> simp

lemma extractDigits_mem (R : ℕ) (hR : 2 ≤ R) : ∀ (fuel : ℕ) (q : ℚ), 0 ≤ q → q < R →
    ∀ d ∈ extractDigits R fuel q, 0 ≤ d ∧ d < (R : ℤ) := by
  intro fuel
  induction fuel with
  | zero => intro q _ _ d hd; simp [extractDigits] at hd
  | succ fuel ih =>
      intro q hq hqR d hd
      have hfl0 : 0 ≤ ⌊q⌋ := Int.floor_nonneg.mpr hq
      have hflR : ⌊q⌋ < (R : ℤ) := by
        rw [Int.floor_lt]
        exact_mod_cast hqR
      rw [extractDigits] at hd
      by_cases hrem : q - (⌊q⌋ : ℚ) = 0
      · rw [if_pos hrem] at hd
        simp at hd
        exact hd ▸ ⟨hfl0, hflR⟩
      · rw [if_neg hrem] at hd
        rcases List.mem_cons.mp hd with rfl | hd2
        · exact ⟨hfl0, hflR⟩
        · have hfle : (⌊q⌋ : ℚ) ≤ q := Int.floor_le q
          have hflt : q < (⌊q⌋ : ℚ) + 1 := Int.lt_floor_add_one q
          have hRq : (0 : ℚ) < R := by exact_mod_cast Nat.lt_of_lt_of_le Nat.zero_lt_two hR
          have hq0 : 0 ≤ (q - ⌊q⌋) * R := mul_nonneg (by linarith) (le_of_lt hRq)
          have hqR : (q - ⌊q⌋) * R < R := by
            have h1 : q - (⌊q⌋ : ℚ) < 1 := by linarith
            nlinarith
          exact ih _ hq0 hqR d hd2

/-- Exactness of the digit-extraction loop: if `q ≥ 0` has at most `fuel`
radix-`R` digits (i.e. `q * R^(fuel-1)` is an integer), the extracted digit
list reconstructs `q` exactly. -/
lemma extractDigits_sum (R : ℕ) (hR : 2 ≤ R) : ∀ (fuel : ℕ) (q : ℚ), 0 ≤ q →
    (∃ z : ℤ, q * (R : ℚ) ^ (fuel - 1) = z) → fuel ≠ 0 →
    digitsVal R (extractDigits R fuel q) = q := by
  have hRq : (0 : ℚ) < R := by exact_mod_cast Nat.lt_of_lt_of_le Nat.zero_lt_two hR
  intro fuel
  induction fuel with
  | zero => intro q _ _ h0; exact absurd rfl h0
  | succ fuel ih =>
      intro q hq hz _
      rw [extractDigits]
      by_cases hrem : q - (⌊q⌋ : ℚ) = 0
      · rw [if_pos hrem, digitsVal, digitsVal]
        have : (⌊q⌋ : ℚ) = q := by linarith
        simp [this]
      · rw [if_neg hrem, digitsVal]
        rcases fuel with - | f0
        · exfalso
          obtain ⟨z, hz⟩ := hz
          norm_num at hz
          apply hrem
          rw [hz, Int.floor_intCast, sub_self]
        · have hfle : (⌊q⌋ : ℚ) ≤ q := Int.floor_le q
          have hflt : q < (⌊q⌋ : ℚ) + 1 := Int.lt_floor_add_one q
          have hq0 : 0 ≤ (q - ⌊q⌋) * R := mul_nonneg (by linarith) (le_of_lt hRq)
          have hz2 : ∃ z : ℤ, (q - ⌊q⌋) * (R : ℚ) * (R : ℚ) ^ (f0 + 1 - 1) = z := by
            obtain ⟨z, hzz⟩ := hz
            refine ⟨z - ⌊q⌋ * R ^ (f0 + 1), ?_⟩
            have hpow : (q - ⌊q⌋) * (R : ℚ) * (R : ℚ) ^ (f0 + 1 - 1) = q * (R : ℚ) ^ (f0 + 1) - (⌊q⌋ : ℚ) * (R : ℚ) ^ (f0 + 1) := by
              simp only [Nat.add_sub_cancel]
              ring
            rw [hpow]
            have : q * (R : ℚ) ^ (f0 + 1) = (z : ℚ) := by
              simpa only [Nat.add_sub_cancel] using hzz
            rw [this]
            push_cast
            ring
          have := ih ((q - ⌊q⌋) * R) hq0 hz2 (by omega)
          rw [this]
          field_simp

/-! ## Well-formed finite nonzero representations -/

/-- The data every finite nonzero representation produced by the codec enjoys:
a finite nonzero category, a full-length digit array with digits in `[0, R)`,
a normalized (nonzero) leading digit, and exact magnitude `v`. -/
structure GoodRep (R N : ℕ) (rep : DecompRep) (v : ℚ) : Prop where
  cat : rep.category = Category.normal ∨ rep.category = Category.subnormal
  len : rep.digits.length = N
  mem : ∀ d ∈ rep.digits, 0 ≤ d ∧ d < (R : ℤ)
  headOne : 1 ≤ rep.digits.headI
  val : digitsVal R rep.digits * (R : ℚ) ^ rep.ilogb = v

namespace GoodRep

variable {R N : ℕ} {rep : DecompRep} {v : ℚ}

lemma N_pos (h : GoodRep R N rep v) : 1 ≤ N := by
  by_contra hc
  have hN : N = 0 := by omega
  have hnil : rep.digits = [] := List.length_eq_zero.mp (hN ▸ h.len)
  have h0 := h.headOne
  rw [hnil] at h0
  simp [List.headI] at h0

lemma ne_nil (h : GoodRep R N rep v) : rep.digits ≠ [] := by
  intro hcon
  have hlen := h.len
  rw [hcon] at hlen
  have := h.N_pos
  simp at hlen
  omega

lemma dv_ge_one (h : GoodRep R N rep v) : 1 ≤ digitsVal R rep.digits :=
  digitsVal_head_ge_one R _ h.ne_nil h.headOne (fun d hd => (h.mem d hd).1)

lemma dv_lt_radix (h : GoodRep R N rep v) (hR : 2 ≤ R) : digitsVal R rep.digits < R :=
  digitsVal_lt_radix R (by omega) _ (fun d hd => (h.mem d hd).2)

lemma v_eq_pos (h : GoodRep R N rep v) (hR : 2 ≤ R) : 0 < v := by
  rw [← h.val]
  have h1 := h.dv_ge_one
  have hRq : (0 : ℚ) < R := by exact_mod_cast Nat.lt_of_lt_of_le Nat.zero_lt_two hR
  exact mul_pos (by linarith) (zpow_pos hRq _)

lemma ilogb_eq_log (h : GoodRep R N rep v) (hR : 2 ≤ R) : rep.ilogb = Int.log R v := by
  have hb : 1 < R := by omega
  have hRq : (1 : ℚ) < R := by exact_mod_cast hb
  have hRpos : (0 : ℚ) < R := lt_trans one_pos hRq
  have hv := h.v_eq_pos hR
  have hlow : (R : ℚ) ^ rep.ilogb ≤ v := by
    rw [← h.val]
    have := h.dv_ge_one
    nlinarith [zpow_pos hRpos rep.ilogb]
  have hhigh : v < (R : ℚ) ^ (rep.ilogb + 1) := by
    rw [← h.val, zpow_add_one₀ (ne_of_gt hRpos)]
    have := h.dv_lt_radix hR
    nlinarith [zpow_pos hRpos rep.ilogb]
  have h1 := (Int.zpow_le_iff_le_log hb hv).mp hlow
  have h2 := (Int.lt_zpow_iff_log_lt hb hv).mp hhigh
  omega

end GoodRep

/-- Magnitude comparison of normalized values (`digit value in [1, R)` times a
radix power) is exponent order refined by digit-value order. -/
lemma normMag_lt_iff {R : ℕ} (hR : 2 ≤ R) {d1 d2 : ℚ} {e1 e2 : ℤ}
    (h11 : 1 ≤ d1) (h1R : d1 < R) (h21 : 1 ≤ d2) (h2R : d2 < R) :
    d1 * (R : ℚ) ^ e1 < d2 * (R : ℚ) ^ e2 ↔ (e1 < e2 ∨ (e1 = e2 ∧ d1 < d2)) := by
  have hRq : (1 : ℚ) < R := by exact_mod_cast Nat.lt_of_lt_of_le Nat.one_lt_two hR
  have hRpos : (0 : ℚ) < R := lt_trans one_pos hRq
  rcases lt_trichotomy e1 e2 with he | he | he
  · simp only [he, true_or, iff_true]
    calc d1 * (R : ℚ) ^ e1 < (R : ℚ) * (R : ℚ) ^ e1 :=
        mul_lt_mul_of_pos_right h1R (zpow_pos hRpos e1)
    _ = (R : ℚ) ^ (e1 + 1) := by rw [zpow_add_one₀ (ne_of_gt hRpos)]; ring
    _ ≤ (R : ℚ) ^ e2 := zpow_le_zpow_right₀ (le_of_lt hRq) (by omega)
    _ ≤ d2 * (R : ℚ) ^ e2 := by nlinarith [zpow_pos hRpos e2]
  · subst he
    have hp := zpow_pos hRpos e1
    constructor
    · intro hlt
      exact Or.inr ⟨rfl, lt_of_mul_lt_mul_right hlt (le_of_lt hp)⟩
    · rintro (hc | ⟨-, hc⟩)
      · omega
      · exact mul_lt_mul_of_pos_right hc hp
  · constructor
    · intro hlt
      exfalso
      have hgt : d2 * (R : ℚ) ^ e2 < d1 * (R : ℚ) ^ e1 := by
        calc d2 * (R : ℚ) ^ e2 < (R : ℚ) * (R : ℚ) ^ e2 :=
            mul_lt_mul_of_pos_right h2R (zpow_pos hRpos e2)
        _ = (R : ℚ) ^ (e2 + 1) := by rw [zpow_add_one₀ (ne_of_gt hRpos)]; ring
        _ ≤ (R : ℚ) ^ e1 := zpow_le_zpow_right₀ (le_of_lt hRq) (by omega)
        _ ≤ d1 * (R : ℚ) ^ e1 := by nlinarith [zpow_pos hRpos e1]
      linarith
    · rintro (hc | ⟨hc, -⟩) <;> omega

/-! ## Comparator semantics -/

lemma digitsLt_true_eq (A B : List ℤ) :
    DecompRep.digitsLt true A B = DecompRep.digitsLt false B A := by
  induction A generalizing B with
  | nil => cases B <;> rfl
  | cons a as ih =>
      cases B with
      | nil => rfl
      | cons b bs =>
          rw [DecompRep.digitsLt, DecompRep.digitsLt]
          by_cases h : a = b
          · subst h
            simp [ih]
          · simp [h, Ne.symm h]

lemma digitsLt_false_iff (R : ℕ) (hR : 2 ≤ R) : ∀ (A B : List ℤ), A.length = B.length →
    (∀ d ∈ A, 0 ≤ d ∧ d < (R : ℤ)) → (∀ d ∈ B, 0 ≤ d ∧ d < (R : ℤ)) →
    (DecompRep.digitsLt false A B = true ↔ digitsVal R A < digitsVal R B) := by
  have hRq : (0 : ℚ) < R := by exact_mod_cast Nat.lt_of_lt_of_le Nat.zero_lt_two hR
  intro A
  induction A with
  | nil =>
      intro B hlen _ _
      have hB : B = [] := List.length_eq_zero.mp (by simpa using hlen.symm)
      subst hB
      simp [DecompRep.digitsLt]
  | cons a as ih =>
      intro B hlen hA hB
      cases B with
      | nil => simp at hlen
      | cons b bs =>
          have hlen2 : as.length = bs.length := by simpa using hlen
          have hAs : ∀ d ∈ as, 0 ≤ d ∧ d < (R : ℤ) := fun d hd => hA d (List.mem_cons_of_mem a hd)
          have hBs : ∀ d ∈ bs, 0 ≤ d ∧ d < (R : ℤ) := fun d hd => hB d (List.mem_cons_of_mem b hd)
          have has0 : 0 ≤ digitsVal R as := digitsVal_nonneg R as (fun d hd => (hAs d hd).1)
          have hbs0 : 0 ≤ digitsVal R bs := digitsVal_nonneg R bs (fun d hd => (hBs d hd).1)
          have hasR : digitsVal R as < R := digitsVal_lt_radix R (by omega) as (fun d hd => (hAs d hd).2)
          have hbsR : digitsVal R bs < R := digitsVal_lt_radix R (by omega) bs (fun d hd => (hBs d hd).2)
          rw [DecompRep.digitsLt]
          by_cases hab : a = b
          · subst hab
            simp only [ne_eq, not_true_eq_false, if_false]
            rw [ih bs hlen2 hAs hBs, digitsVal, digitsVal]
            constructor
            · intro h
              have : digitsVal R as / R < digitsVal R bs / R := by
                apply div_lt_div_of_pos_right h hRq
              linarith
            · intro h
              have hdiv : digitsVal R as / R < digitsVal R bs / R := by linarith
              have hmul := mul_lt_mul_of_pos_right hdiv hRq
              rw [div_mul_cancel₀ _ (ne_of_gt hRq), div_mul_cancel₀ _ (ne_of_gt hRq)] at hmul
              exact hmul
          · rw [if_pos hab, digitsVal, digitsVal]
            constructor
            · intro h
              have hlt : a < b := of_decide_eq_true h
              have h1 : (a : ℚ) + 1 ≤ b := by exact_mod_cast Int.add_one_le_iff.mpr hlt
              have h2 : digitsVal R as / R < 1 := (div_lt_one hRq).mpr hasR
              have h3 : 0 ≤ digitsVal R bs / R := div_nonneg hbs0 (le_of_lt hRq)
              linarith
            · intro h
              apply decide_eq_true
              by_contra hc
              have hba : b < a := by
                rcases lt_trichotomy a b with h1 | h1 | h1
                · exact absurd h1 hc
                · exact absurd h1 hab
                · exact h1
              have h1 : (b : ℚ) + 1 ≤ a := by exact_mod_cast Int.add_one_le_iff.mpr hba
              have h2 : digitsVal R bs / R < 1 := (div_lt_one hRq).mpr hbsR
              have h3 : 0 ≤ digitsVal R as / R := div_nonneg has0 (le_of_lt hRq)
              linarith

/-- The classification utilities on a finite nonzero (normal or subnormal)
representation. -/
lemma finite_flags {a : DecompRep}
    (hca : a.category = Category.normal ∨ a.category = Category.subnormal) :
    DecompRep.isnanR a = false ∧ DecompRep.isinfR a = false ∧ DecompRep.iszeroR a = false ∧
    DecompRep.isnegR a = a.signbit ∧ DecompRep.isposR a = !a.signbit := by
  have h1 : DecompRep.isnanR a = false := by
    rw [DecompRep.isnanR]
    rcases hca with h | h <;> rw [h] <;> rfl
  have h2 : DecompRep.isinfR a = false := by
    rw [DecompRep.isinfR]
    rcases hca with h | h <;> rw [h] <;> rfl
  have h3 : DecompRep.iszeroR a = false := by
    rw [DecompRep.iszeroR]
    rcases hca with h | h <;> rw [h] <;> rfl
  refine ⟨h1, h2, h3, ?_, ?_⟩
  · rw [DecompRep.isnegR, h1, h3]
    simp
  · rw [DecompRep.isposR, h1, h3]
    simp

/-- On well-formed finite nonzero representations, the comparator agrees with
comparison of the signed values. -/
lemma repLt_good_iff {R N : ℕ} (hR : 2 ≤ R) {a b : DecompRep} {va vb : ℚ}
    (ha : GoodRep R N a va) (hb : GoodRep R N b vb) :
    (DecompRep.repLt a b = true ↔
      (if a.signbit then -va else va) < (if b.signbit then -vb else vb)) := by
  obtain ⟨ha1, ha2, ha3, ha4, ha5⟩ := finite_flags ha.cat
  obtain ⟨hb1, hb2, hb3, hb4, hb5⟩ := finite_flags hb.cat
  have hva := ha.v_eq_pos hR
  have hvb := hb.v_eq_pos hR
  have hdva1 := ha.dv_ge_one
  have hdvb1 := hb.dv_ge_one
  have hdvaR := ha.dv_lt_radix hR
  have hdvbR := hb.dv_lt_radix hR
  have hmag : digitsVal R a.digits * (R : ℚ) ^ a.ilogb < digitsVal R b.digits * (R : ℚ) ^ b.ilogb ↔
      (a.ilogb < b.ilogb ∨ (a.ilogb = b.ilogb ∧ digitsVal R a.digits < digitsVal R b.digits)) :=
    normMag_lt_iff hR hdva1 hdvaR hdvb1 hdvbR
  have hmag2 : digitsVal R b.digits * (R : ℚ) ^ b.ilogb < digitsVal R a.digits * (R : ℚ) ^ a.ilogb ↔
      (b.ilogb < a.ilogb ∨ (b.ilogb = a.ilogb ∧ digitsVal R b.digits < digitsVal R a.digits)) :=
    normMag_lt_iff hR hdvb1 hdvbR hdva1 hdvaR
  rw [ha.val] at hmag hmag2
  rw [hb.val] at hmag hmag2
  cases hsa : a.signbit <;> cases hsb : b.signbit
  · -- both nonnegative
    have hrepeq : DecompRep.repLt a b =
        (if a.ilogb ≠ b.ilogb then decide (a.ilogb < b.ilogb)
         else DecompRep.digitsLt false a.digits b.digits) := by
      rw [DecompRep.repLt, ha1, hb1, ha2, hb2, ha3, hb3, ha4, hb4, hsa, hsb]
      rfl
    rw [hrepeq]
    show _ = true ↔ va < vb
    by_cases hil : a.ilogb = b.ilogb
    · rw [if_neg (not_not_intro hil)]
      rw [digitsLt_false_iff R hR a.digits b.digits (ha.len.trans hb.len.symm) ha.mem hb.mem]
      constructor
      · intro h
        exact hmag.mpr (Or.inr ⟨hil, h⟩)
      · intro h
        rcases hmag.mp h with h2 | ⟨-, h2⟩
        · omega
        · exact h2
    · rw [if_pos hil]
      constructor
      · intro h
        exact hmag.mpr (Or.inl (of_decide_eq_true h))
      · intro h
        apply decide_eq_true
        rcases hmag.mp h with h2 | ⟨h2, -⟩
        · exact h2
        · exact absurd h2 hil
  · -- a nonnegative, b negative: never less
    have hrepeq : DecompRep.repLt a b = false := by
      rw [DecompRep.repLt, ha1, hb1, ha2, hb2, ha3, hb3, ha4, hb4, hsa, hsb]
      rfl
    rw [hrepeq]
    show false = true ↔ va < -vb
    simp only [Bool.false_eq_true, false_iff, not_lt]
    linarith
  · -- a negative, b nonnegative: always less
    have hrepeq : DecompRep.repLt a b = true := by
      rw [DecompRep.repLt, ha1, hb1, ha2, hb2, ha3, hb3, ha4, hb4, hsa, hsb]
      rfl
    rw [hrepeq]
    show true = true ↔ -va < vb
    simp only [true_iff]
    linarith
  · -- both negative: reversed comparison
    have hrepeq : DecompRep.repLt a b =
        (if a.ilogb ≠ b.ilogb then decide (b.ilogb < a.ilogb)
         else DecompRep.digitsLt true a.digits b.digits) := by
      rw [DecompRep.repLt, ha1, hb1, ha2, hb2, ha3, hb3, ha4, hb4, hsa, hsb]
      rfl
    rw [hrepeq]
    show _ = true ↔ -va < -vb
    by_cases hil : a.ilogb = b.ilogb
    · rw [if_neg (not_not_intro hil), digitsLt_true_eq]
      rw [digitsLt_false_iff R hR b.digits a.digits (hb.len.trans ha.len.symm) hb.mem ha.mem]
      constructor
      · intro h
        have := hmag2.mpr (Or.inr ⟨hil.symm, h⟩)
        linarith
      · intro h
        have hblta : vb < va := by linarith
        rcases hmag2.mp hblta with h2 | ⟨-, h2⟩
        · omega
        · exact h2
    · rw [if_pos hil]
      constructor
      · intro h
        have := hmag2.mpr (Or.inl (of_decide_eq_true h))
        linarith
      · intro h
        apply decide_eq_true
        have hblta : vb < va := by linarith
        rcases hmag2.mp hblta with h2 | ⟨h2, -⟩
        · exact h2
        · exact absurd h2.symm hil

/-- A finite negative representation is less than a zero representation. -/
lemma repLt_neg_zero {R N : ℕ} {a b : DecompRep} {va : ℚ}
    (ha : GoodRep R N a va) (hsa : a.signbit = true) (hb : b.category = Category.zero) :
    DecompRep.repLt a b = true := by
  obtain ⟨ha1, ha2, ha3, ha4, -⟩ := finite_flags ha.cat
  have hb1 : DecompRep.isnanR b = false := by simp [DecompRep.isnanR, hb]
  have hb2 : DecompRep.isinfR b = false := by simp [DecompRep.isinfR, hb]
  have hb3 : DecompRep.iszeroR b = true := by simp [DecompRep.iszeroR, hb]
  rw [DecompRep.repLt, ha1, hb1, ha2, hb2, ha3, hb3, ha4, hsa]
  simp

/-! ## Evaluation of `operator F` (toFP) -/

lemma headI_take (l : List ℤ) (k : ℕ) (hk : k ≠ 0) : (l.take k).headI = l.headI := by
  cases l with
  | nil => simp
  | cons a as =>
      rcases k with - | k
      · exact absurd rfl hk
      · simp [List.take]

lemma take_ne_nil (l : List ℤ) (k : ℕ) (hl : l ≠ []) (hk : k ≠ 0) : l.take k ≠ [] := by
  cases l with
  | nil => exact absurd rfl hl
  | cons a as =>
      rcases k with - | k
      · exact absurd rfl hk
      · simp [List.take]

lemma Format.rad_sub_zpow_le_fmax {F : Format} (hF : F.Valid) :
    (F.radix : ℚ) - (F.radix : ℚ) ^ (1 - (F.digits : ℤ)) ≤ F.fmax := by
  have hr2 := Format.radix_q_two_le hF
  have hrpos := Format.radix_q_pos hF
  set r := (F.radix : ℚ) with hrdef
  set t := r ^ ((F.digits : ℤ) - 1) with htdef
  have ht1 : 1 ≤ t := Format.one_le_zpow_digits_sub_one hF
  have htpos : 0 < t := lt_of_lt_of_le one_pos ht1
  have hti : t * t⁻¹ = 1 := mul_inv_cancel₀ (ne_of_gt htpos)
  have htinv : r ^ (1 - (F.digits : ℤ)) = t⁻¹ := by
    rw [htdef, ← zpow_neg]
    congr 1
    ring
  have htinv1 : t⁻¹ ≤ 1 := by
    rw [← hti]
    nlinarith [inv_pos.mpr htpos]
  have hrt : r * t = r ^ (F.digits : ℤ) := by
    have hkey := zpow_mul_sub (ne_of_gt hrpos) 1 (F.digits : ℤ)
    rw [zpow_one] at hkey
    exact hkey
  have hfmax1 : r ^ (F.digits : ℤ) - 1 ≤ F.fmax := by
    rw [Format.fmax_eq_zpow]
    have h1 : (1 : ℚ) ≤ r ^ (F.maxExp - F.digits) :=
      one_le_zpow₀ (by linarith) (by have := hF.2.2.2; omega)
    have h0 : (0 : ℚ) ≤ r ^ (F.digits : ℤ) - 1 := by
      have := Format.one_le_zpow_digits_sub_one hF
      have := Format.zpow_digits_sub_one_le hF
      linarith
    nlinarith
  have hprod : 0 ≤ (t - 1) * (r - t⁻¹) := by
    apply mul_nonneg (by linarith)
    linarith
  have hkey : r - t⁻¹ ≤ r * t - 1 := by nlinarith
  rw [htinv]
  rw [hrt] at hkey
  linarith

/-- `operator F` on a zero representation produces the signed zero. -/
lemma toFP_zero_rep (F : Format) (N : ℕ) {rep : DecompRep} (h : rep.category = Category.zero) :
    toFP F N rep = FP.fin rep.signbit 0 := by
  rw [toFP]
  simp only [h, if_true, reduceCtorEq]
  cases hs : rep.signbit
  · simp
  · simp only [if_true]
    rw [ConstexprCmath.copysign_negone, ConstexprCmath.signbit_fin_zero]
    simp [FP.neg]

/-- `operator F` on a well-formed finite nonzero representation whose exponent
is below the destination `max_exponent`: the first `min(F::digits, N)` digits
are summed exactly and rescaled; the result is finite with the
representation's sign. -/
lemma toFP_good_eval {F : Format} (hF : F.Valid) {N : ℕ} {rep : DecompRep} {v : ℚ}
    (h : GoodRep F.radix N rep v) (hil : rep.ilogb < F.maxExp) :
    toFP F N rep = FP.fin rep.signbit
      (digitsVal F.radix (rep.digits.take (min F.digits N)) * (F.radix : ℚ) ^ rep.ilogb) ∧
    1 ≤ digitsVal F.radix (rep.digits.take (min F.digits N)) ∧
    digitsVal F.radix (rep.digits.take (min F.digits N)) ≤ F.fmax := by
  have hP1 : 1 ≤ F.digits := hF.2.1
  have hN1 := h.N_pos
  have hmin : min F.digits N ≠ 0 := by omega
  set l := rep.digits.take (min F.digits N) with hldef
  have hmem : ∀ d ∈ l, 0 ≤ d ∧ d < (F.radix : ℤ) := fun d hd => h.mem d (List.take_subset _ _ hd)
  have hdv1 : 1 ≤ digitsVal F.radix l := by
    apply digitsVal_head_ge_one F.radix l (take_ne_nil _ _ h.ne_nil hmin)
    · rw [hldef, headI_take _ _ hmin]
      exact h.headOne
    · exact fun d hd => (hmem d hd).1
  have hlen : l.length ≤ F.digits := by
    rw [hldef, List.length_take]
    omega
  have hdvle : digitsVal F.radix l ≤ F.fmax := by
    have := digitsVal_le_of_len F.radix hF.1 l hmem F.digits hlen
    have h2 := Format.rad_sub_zpow_le_fmax hF
    linarith
  refine ⟨?_, hdv1, hdvle⟩
  rw [toFP]
  have hcat0 : ¬(rep.category = Category.zero) := by
    rcases h.cat with hc | hc <;> simp [hc]
  have hcat1 : rep.category = Category.subnormal ∨ rep.category = Category.normal := h.cat.symm
  rw [if_neg hcat0, if_pos hcat1, if_neg (not_le.mpr hil)]
  rw [ConstexprCmath.scalbn_fin_eval hF false (by linarith) hdvle rep.ilogb]
  cases hs : rep.signbit
  · simp
  · simp only [if_true]
    rw [ConstexprCmath.copysign_negone, ConstexprCmath.signbit_fin_pos]
    · simp [FP.neg]
    · have hz := zpow_pos (Format.radix_q_pos hF) rep.ilogb
      nlinarith

/-- `operator F` back into a destination with at least `N` digits of precision
reproduces the exact value of the representation. -/
lemma toFP_good_exact {F : Format} (hF : F.Valid) {N : ℕ} {rep : DecompRep} {v : ℚ}
    (h : GoodRep F.radix N rep v) (hil : rep.ilogb < F.maxExp) (hN : N ≤ F.digits) :
    toFP F N rep = FP.fin rep.signbit v := by
  obtain ⟨heq, -, -⟩ := toFP_good_eval hF h hil
  rw [heq]
  congr 1
  have htake : rep.digits.take (min F.digits N) = rep.digits := by
    apply List.take_of_length_le
    rw [h.len]
    omega
  rw [htake, h.val]

/-! ## The codec: `decomp(F f)` specification -/

/-- `decomp(F f)` on a signed zero records category `FP_ZERO` and the sign. -/
lemma decompOfFP_zero_spec (F : Format) (N : ℕ) (s : Bool) :
    decompOfFP F N (FP.fin s 0) =
      { category := Category.zero, signbit := s, digits := padTo N [], ilogb := FP_ILOGB0 } := by
  simp only [decompOfFP]
  rw [ConstexprCmath.fpclassify_fin_zero, ConstexprCmath.signbit_fin_zero,
    ConstexprCmath.ilogb_fin_zero]
  rw [if_neg (by simp)]

/-- `decomp(F f)` on a positive representable magnitude `m` (with sign `s`):
the representation is well formed with exact value `m`, sign `s`, and exponent
`Int.log radix m`, the digits being the (padded) extraction of the normalized
magnitude. -/
lemma decompOfFP_fin_spec {F : Format} (hF : F.Valid) {N : ℕ} (hN : F.digits ≤ N) (s : Bool)
    {m : ℚ} (hm : 0 < m) (hrep : F.RepMag m) :
    GoodRep F.radix N (decompOfFP F N (FP.fin s m)) m ∧
    (decompOfFP F N (FP.fin s m)).signbit = s ∧
    (decompOfFP F N (FP.fin s m)).ilogb = Int.log F.radix m ∧
    (∀ d ∈ (decompOfFP F N (FP.fin s m)).digits.drop F.digits, d = 0) := by
  have hb : 1 < F.radix := by have := hF.1; omega
  have hP1 : 1 ≤ F.digits := hF.2.1
  have hRq : (1 : ℚ) < F.radix := Format.radix_q_one_lt hF
  have hRpos : (0 : ℚ) < F.radix := Format.radix_q_pos hF
  have hRne := ne_of_gt hRpos
  have hle : m ≤ F.fmax := Format.RepMag.le_fmax hF hrep
  have hsb : ConstexprCmath.signbit (FP.fin s m) = s := ConstexprCmath.signbit_fin_pos hm
  have hilval := ConstexprCmath.ilogb_fin_eval hF s hm hle
  set il := Int.log F.radix m with hildef
  set q : ℚ := m * (F.radix : ℚ) ^ (-il) with hqdef
  have hq1 : 1 ≤ q := by
    have hzl := Int.zpow_log_le_self hb hm
    have := mul_le_mul_of_nonneg_right hzl (le_of_lt (zpow_pos hRpos (-il)))
    rw [← zpow_add₀ hRne] at this
    simp only [add_neg_cancel, zpow_zero] at this
    exact this
  have hqR : q < F.radix := by
    have hzh := Int.lt_zpow_succ_log_self hb m
    have := mul_lt_mul_of_pos_right hzh (zpow_pos hRpos (-il))
    rw [← zpow_add₀ hRne] at this
    calc q < (F.radix : ℚ) ^ (il + 1 + -il) := this
    _ = (F.radix : ℚ) := by
        have heq : il + 1 + -il = 1 := by ring
        rw [heq, zpow_one]
  have hq0 : 0 ≤ q := le_trans zero_le_one hq1
  -- integrality of the normalized magnitude at `digits` of precision
  obtain ⟨k, e, hmeq, hk, he1, he2⟩ := hrep
  have hile : il ≤ e + F.digits - 1 := by
    have hkR : (k : ℚ) < (F.radix : ℚ) ^ (F.digits : ℤ) := by
      rw [zpow_natCast]
      exact_mod_cast hk
    have hmlt : m < (F.radix : ℚ) ^ (e + F.digits) := by
      rw [hmeq]
      calc (k : ℚ) * (F.radix : ℚ) ^ e < (F.radix : ℚ) ^ (F.digits : ℤ) * (F.radix : ℚ) ^ e :=
          mul_lt_mul_of_pos_right hkR (zpow_pos hRpos e)
      _ = (F.radix : ℚ) ^ (e + F.digits) := by
          rw [← zpow_add₀ hRne]
          congr 1
          ring
    have := (Int.lt_zpow_iff_log_lt hb hm).mp hmlt
    omega
  have hz : ∃ z : ℤ, q * (F.radix : ℚ) ^ (F.digits - 1) = z := by
    refine ⟨k * (F.radix : ℤ) ^ (e - il + F.digits - 1).toNat, ?_⟩
    have ht0 : (0 : ℤ) ≤ e - il + F.digits - 1 := by omega
    push_cast
    rw [← zpow_natCast (F.radix : ℚ) (e - il + F.digits - 1).toNat,
      Int.toNat_of_nonneg ht0, hqdef, hmeq]
    rw [← zpow_natCast (F.radix : ℚ) (F.digits - 1)]
    have hcast : ((F.digits - 1 : ℕ) : ℤ) = (F.digits : ℤ) - 1 := by
      have := hP1
      omega
    rw [hcast]
    rw [mul_assoc, mul_assoc, ← zpow_add₀ hRne, ← zpow_add₀ hRne]
    congr 2
    ring
  -- the shape of the constructed representation
  set C := ConstexprCmath.fpclassify F (FP.fin s m) with hCdef
  have hCor : C = Category.normal ∨ C = Category.subnormal := by
    rw [hCdef, ConstexprCmath.fpclassify_fin_eval hF s hm hle]
    by_cases hc : m < F.fminNormal
    · rw [if_pos hc]
      exact Or.inr rfl
    · rw [if_neg hc]
      exact Or.inl rfl
  have hfabs : (if s = true then FP.neg (FP.fin s m) else FP.fin s m) = FP.fin false m := by
    cases s <;> simp [FP.neg]
  have hrepeq : decompOfFP F N (FP.fin s m) =
      { category := C, signbit := s,
        digits := padTo N (extractDigits F.radix F.digits q), ilogb := il } := by
    simp only [decompOfFP]
    rw [hsb, hilval, ← hCdef, if_pos hCor, hfabs,
      ConstexprCmath.scalbn_fin_eval hF false hm hle]
    simp only [FP.magOf]
    rw [min_eq_left hN, ← hqdef]
  have hextmem := extractDigits_mem F.radix hF.1 F.digits q hq0 hqR
  have hextlen := extractDigits_length F.radix F.digits q
  have hextne := extractDigits_ne_nil F.radix F.digits q (by omega)
  have hexthead : (extractDigits F.radix F.digits q).headI = ⌊q⌋ :=
    extractDigits_headI F.radix F.digits q (by omega)
  have hextsum : digitsVal F.radix (extractDigits F.radix F.digits q) = q :=
    extractDigits_sum F.radix hF.1 F.digits q hq0 hz (by omega)
  refine ⟨⟨?_, ?_, ?_, ?_, ?_⟩, ?_, ?_, ?_⟩
  · rw [hrepeq]
    exact hCor
  · rw [hrepeq]
    exact padTo_length N _ (le_trans hextlen hN)
  · rw [hrepeq]
    intro d hd
    rcases padTo_mem N _ d hd with hmem | rfl
    · exact hextmem d hmem
    · constructor
      · exact le_refl 0
      · exact_mod_cast Nat.lt_of_lt_of_le Nat.zero_lt_two hF.1
  · rw [hrepeq]
    simp only
    rw [padTo_headI N _ hextne, hexthead]
    exact Int.le_floor.mpr (by exact_mod_cast hq1)
  · rw [hrepeq]
    simp only
    rw [digitsVal_padTo, hextsum, hqdef, mul_assoc, ← zpow_add₀ hRne]
    simp
  · rw [hrepeq]
  · rw [hrepeq]
  · rw [hrepeq]
    exact padTo_drop_zero N F.digits _ hextlen

/-! ## The codec: `decomp(I i)` specification -/

/-- The `count_digits` loop computes `Nat.log + 1`. -/
lemma countDigitsNat_eq_log (R : ℕ) (hR : 2 ≤ R) : ∀ u : ℕ, countDigitsNat R u = Nat.log R u + 1 := by
  intro u
  induction u using countDigitsNat.induct R with
  | case1 u h ih =>
      rw [countDigitsNat, dif_pos h, ih]
      have h1 : 0 < Nat.log R u := Nat.log_pos (by omega) h.2
      rw [Nat.log_div_base]
      omega
  | case2 u h =>
      rw [countDigitsNat, dif_neg h]
      have hu : u < R := by
        rcases Nat.lt_or_ge u R with h1 | h1
        · exact h1
        · exact absurd ⟨hR, h1⟩ h
      rw [Nat.log_of_lt hu]

/-- Value of a reversed (most-significant-first) digit list. -/
lemma digitsVal_reverse_ofDigits (R : ℕ) (hR : 2 ≤ R) : ∀ l : List ℕ,
    digitsVal R (l.reverse.map Int.ofNat) =
      ((Nat.ofDigits R l : ℕ) : ℚ) * (R : ℚ) ^ (1 - (l.length : ℤ)) := by
  have hRne : (R : ℚ) ≠ 0 := Nat.cast_ne_zero.mpr (by omega)
  intro l
  induction l with
  | nil => simp [digitsVal]
  | cons x rest ih =>
      rw [List.reverse_cons, List.map_append, digitsVal_append, ih]
      have hlen : (rest.reverse.map Int.ofNat).length = rest.length := by simp
      have hcons : (Nat.ofDigits R (x :: rest) : ℕ) = x + R * Nat.ofDigits R rest := by
        rw [Nat.ofDigits_cons]
      rw [hlen, hcons, List.length_cons]
      simp only [List.map_cons, List.map_nil, digitsVal]
      push_cast
      rw [← zpow_natCast (R : ℚ) rest.length, div_eq_mul_inv, ← zpow_neg]
      have hsplit : (R : ℚ) ^ (1 - (rest.length : ℤ)) =
          (R : ℚ) ^ (-(rest.length : ℤ)) * (R : ℚ) := by
        rw [← zpow_add_one₀ hRne]
        congr 1
        ring
      have hsplit2 : (R : ℚ) ^ (1 - ((rest.length : ℤ) + 1)) = (R : ℚ) ^ (-(rest.length : ℤ)) := by
        congr 1
        ring
      rw [hsplit, hsplit2]
      simp only [Int.ofNat_eq_natCast]
      push_cast
      ring

lemma getLast?_drop_eq (l : List ℕ) (k : ℕ) (hk : k < l.length) :
    (l.drop k).getLast? = l.getLast? := by
  induction l generalizing k with
  | nil => simp at hk
  | cons a as ih =>
      rcases k with - | k0
      · simp
      · rw [List.drop_succ_cons, ih k0 (by simpa using hk)]
        have hne : as ≠ [] := by
          intro hcon
          rw [hcon] at hk
          simp at hk
        cases as with
        | nil => exact absurd rfl hne
        | cons b bs => rw [List.getLast?_cons_cons]

/-- `decomp(I i)` on a nonzero integer: the representation is well formed with
value `|i| - |i| % R^(count_digits - N)` (the capacity truncation, which is
`|i|` itself when `count_digits ≤ N`), sign `i < 0`, category `FP_NORMAL`, and
exponent `count_digits - 1`. -/
lemma decompOfInt_spec (R N : ℕ) (hR : 2 ≤ R) (hN : 1 ≤ N) (i : ℤ) (hi : i ≠ 0) :
    GoodRep R N (decompOfInt R N i)
      ((i.natAbs - i.natAbs % R ^ (count_digits R i - N) : ℕ) : ℚ) ∧
    (decompOfInt R N i).signbit = decide (i < 0) ∧
    (decompOfInt R N i).category = Category.normal ∧
    (decompOfInt R N i).ilogb = (count_digits R i : ℤ) - 1 := by
  have hb : 1 < R := by omega
  set u := i.natAbs with hudef
  have hu : u ≠ 0 := Int.natAbs_ne_zero.mpr hi
  set dc := count_digits R i with hdcdef
  have hdc : dc = Nat.log R u + 1 := countDigitsNat_eq_log R hR u
  have hdc1 : 1 ≤ dc := by omega
  set D := Nat.digits R u with hDdef
  have hDlen : D.length = dc := by
    rw [hDdef, Nat.digits_len R u hb hu, hdc]
  set k := dc - N with hkdef
  set kept := D.drop k with hkeptdef
  have hkeptlen : kept.length = dc - k := by
    rw [hkeptdef, List.length_drop, hDlen]
  have hkeptpos : 1 ≤ kept.length := by
    rw [hkeptlen]
    omega
  have hkeptne : kept ≠ [] := by
    intro hcon
    rw [hcon] at hkeptpos
    simp at hkeptpos
  have hrepeq : decompOfInt R N i =
      { category := Category.normal, signbit := decide (i < 0),
        digits := padTo N (kept.reverse.map Int.ofNat), ilogb := (dc : ℤ) - 1 } := by
    simp only [decompOfInt]
    rw [if_neg hi]
  have hmemD : ∀ x ∈ D, x < R := fun x hx => Nat.digits_lt_base hb hx
  -- the truncated value
  have hktake : (D.take k).length = k := by
    rw [List.length_take, hDlen]
    omega
  have hsplitD : Nat.ofDigits R D = Nat.ofDigits R (D.take k) + R ^ k * Nat.ofDigits R kept := by
    conv_lhs => rw [← List.take_append_drop k D]
    rw [← hkeptdef, Nat.ofDigits_append, hktake]
  have hofD : Nat.ofDigits R D = u := Nat.ofDigits_digits R u
  have hlow : Nat.ofDigits R (D.take k) < R ^ k := by
    have hlen : (D.take k).length ≤ k := by
      rw [List.length_take]
      omega
    calc Nat.ofDigits R (D.take k) < R ^ (D.take k).length :=
        Nat.ofDigits_lt_base_pow_length hb (fun x hx => hmemD x (List.take_subset _ _ hx))
    _ ≤ R ^ k := Nat.pow_le_pow_right (by omega) hlen
  have hmod : u % R ^ k = Nat.ofDigits R (D.take k) := by
    rw [← hofD, hsplitD, Nat.add_mul_mod_self_left, Nat.mod_eq_of_lt hlow]
  have htrunc : u - u % R ^ k = R ^ k * Nat.ofDigits R kept := by
    rw [hmod, ← hofD, hsplitD]
    omega
  refine ⟨⟨?_, ?_, ?_, ?_, ?_⟩, ?_, ?_, ?_⟩
  · rw [hrepeq]
    exact Or.inl rfl
  · rw [hrepeq]
    apply padTo_length
    simp only [List.length_map, List.length_reverse]
    omega
  · rw [hrepeq]
    intro d hd
    rcases padTo_mem N _ d hd with hmem | rfl
    · simp only [List.mem_map, List.mem_reverse] at hmem
      obtain ⟨x, hx, rfl⟩ := hmem
      have hxD : x ∈ D := List.IsSuffix.subset (List.drop_suffix k D) hx
      have hxR := hmemD x hxD
      constructor
      · exact Int.ofNat_nonneg x
      · simp only [Int.ofNat_eq_natCast]
        exact_mod_cast hxR
    · exact ⟨le_refl 0, by exact_mod_cast Nat.lt_of_lt_of_le Nat.zero_lt_two hR⟩
  · rw [hrepeq]
    simp only
    have hmapne : kept.reverse.map Int.ofNat ≠ [] := by
      simp [hkeptne]
    rw [padTo_headI N _ hmapne]
    have hDne : D ≠ [] := Nat.digits_ne_nil_iff_ne_zero.mpr hu
    have hlast : D.getLast? = some (D.getLast hDne) := List.getLast?_eq_getLast D hDne
    have hlastne : D.getLast hDne ≠ 0 := Nat.getLast_digit_ne_zero R hu
    have hhead : (kept.reverse.map Int.ofNat).head? = some (Int.ofNat (D.getLast hDne)) := by
      rw [List.head?_map, List.head?_reverse, hkeptdef, getLast?_drop_eq D k (by omega), hlast]
      rfl
    rcases hlist : kept.reverse.map Int.ofNat with - | ⟨c, t⟩
    · rw [hlist] at hhead
      simp at hhead
    · rw [hlist] at hhead
      simp only [List.head?_cons, Option.some.injEq] at hhead
      rw [List.headI_cons, hhead]
      have h1 : 1 ≤ D.getLast hDne := Nat.one_le_iff_ne_zero.mpr hlastne
      simp only [Int.ofNat_eq_natCast]
      exact_mod_cast h1
  · rw [hrepeq]
    simp only
    rw [digitsVal_padTo, digitsVal_reverse_ofDigits R hR kept, htrunc]
    have hRne : (R : ℚ) ≠ 0 := Nat.cast_ne_zero.mpr (by omega)
    rw [mul_assoc, ← zpow_add₀ hRne, hkeptlen]
    have hexp : 1 - ((dc - k : ℕ) : ℤ) + ((dc : ℤ) - 1) = (k : ℤ) := by omega
    rw [hexp]
    push_cast
    rw [← zpow_natCast (R : ℚ) k]
    ring
  · rw [hrepeq]
  · rw [hrepeq]
  · rw [hrepeq]

/-! ## Harmlessness of capacity truncation for representable values -/

/-- Truncating an integer bound `H` to `F.digits` leading radix digits does not
change any comparison with a representable magnitude of `F`: no representable
magnitude lies strictly between the truncated bound and `H`.  This is the fact
that makes the capacity choice of `in_range<I, F>` (exactly `F`'s precision)
sound. -/
lemma trunc_harmless {F : Format} (hF : F.Valid) (H : ℕ) (hH : 1 ≤ H) {m : ℚ}
    (hrep : F.RepMag m) :
    (m ≤ H ↔ m ≤ ((H - H % F.radix ^ (countDigitsNat F.radix H - F.digits) : ℕ) : ℚ)) := by
  have hR : 2 ≤ F.radix := hF.1
  have hb : 1 < F.radix := by omega
  have hP : 1 ≤ F.digits := hF.2.1
  have hRq : (1 : ℚ) < F.radix := Format.radix_q_one_lt hF
  have hRpos : (0 : ℚ) < F.radix := lt_trans one_pos hRq
  have hRne := ne_of_gt hRpos
  set R := F.radix with hRdef
  set P := F.digits with hPdef
  set dc := countDigitsNat R H with hdcdef
  have hdclog : dc = Nat.log R H + 1 := countDigitsNat_eq_log R hR H
  by_cases hcase : dc ≤ P
  · have hzero : dc - P = 0 := by omega
    rw [hzero]
    simp [Nat.mod_one]
  · set k := dc - P with hkdef
    have hk1 : 1 ≤ k := by omega
    set g := R ^ k with hgdef
    have hg : 0 < g := Nat.pos_pow_of_pos k (by omega)
    have hTle : H - H % g ≤ H := Nat.sub_le H (H % g)
    have hTeq : H - H % g = g * (H / g) := by
      have := Nat.div_add_mod H g
      omega
    constructor
    · intro hmH
      by_cases hsmall : m ≤ (R : ℚ) ^ ((dc : ℤ) - 1)
      · -- the truncated bound keeps at least the leading digit, which already
        -- dominates R^(dc-1)
        have hHge : R ^ (dc - 1) ≤ H := by
          have := Nat.pow_log_le_self R (by omega : H ≠ 0)
          rw [hdclog]
          simpa using this
        have hdiv : R ^ (P - 1) ≤ H / g := by
          have h1 : R ^ (dc - 1) / g ≤ H / g := Nat.div_le_div_right hHge
          have h2 : R ^ (dc - 1) / g = R ^ (P - 1) := by
            rw [hgdef, Nat.pow_div (by omega) (by omega)]
            congr 1
            omega
          rw [h2] at h1
          exact h1
        have hsplitpow : R ^ (dc - 1) = g * R ^ (P - 1) := by
          rw [hgdef, ← pow_add]
          congr 1
          omega
        have hTge : R ^ (dc - 1) ≤ H - H % g := by
          rw [hTeq, hsplitpow]
          exact Nat.mul_le_mul_left g hdiv
        have hcastpow : (R : ℚ) ^ ((dc : ℤ) - 1) = ((R ^ (dc - 1) : ℕ) : ℚ) := by
          push_cast
          rw [← zpow_natCast (R : ℚ) (dc - 1)]
          congr 1
          omega
        calc m ≤ (R : ℚ) ^ ((dc : ℤ) - 1) := hsmall
        _ = ((R ^ (dc - 1) : ℕ) : ℚ) := hcastpow
        _ ≤ ((H - H % g : ℕ) : ℚ) := by exact_mod_cast hTge
      · -- m exceeds R^(dc-1), hence is itself a multiple of g = R^(dc-P)
        push_neg at hsmall
        obtain ⟨kq, e, hmeq, hkq, he1, he2⟩ := hrep
        have hmpos : 0 < m := lt_trans (zpow_pos hRpos _) hsmall
        have hmlt : m < (R : ℚ) ^ (e + P) := by
          rw [hmeq]
          have hkR : (kq : ℚ) < (R : ℚ) ^ (P : ℤ) := by
            rw [zpow_natCast]
            exact_mod_cast hkq
          calc (kq : ℚ) * (R : ℚ) ^ e < (R : ℚ) ^ (P : ℤ) * (R : ℚ) ^ e :=
              mul_lt_mul_of_pos_right hkR (zpow_pos hRpos e)
          _ = (R : ℚ) ^ (e + P) := by
              rw [← zpow_add₀ hRne]
              congr 1
              ring
        have hegt : (dc : ℤ) - 1 < e + P := by
          by_contra hc
          push_neg at hc
          have : (R : ℚ) ^ (e + P) ≤ (R : ℚ) ^ ((dc : ℤ) - 1) :=
            zpow_le_zpow_right₀ (le_of_lt hRq) hc
          linarith
        have hek : (k : ℤ) ≤ e := by omega
        set n : ℕ := kq * R ^ (e - (k : ℤ)).toNat with hndef
        have hmng : m = (n : ℚ) * (g : ℚ) := by
          rw [hndef, hmeq, hgdef]
          push_cast
          rw [← zpow_natCast (R : ℚ) (e - (k : ℤ)).toNat, ← zpow_natCast (R : ℚ) k,
            Int.toNat_of_nonneg (by omega)]
          rw [mul_assoc, ← zpow_add₀ hRne]
          congr 2
          ring
        have hng : n * g ≤ H := by
          have : ((n * g : ℕ) : ℚ) ≤ (H : ℚ) := by
            push_cast
            rw [← hmng]  -- hmm: push_cast turned ↑(n*g) into ↑n * ↑g
            exact hmH
          exact_mod_cast this
        have hnle : n ≤ H / g := Nat.le_div_iff_mul_le hg |>.mpr hng
        have hfin : n * g ≤ H - H % g := by
          rw [hTeq]
          calc n * g ≤ (H / g) * g := Nat.mul_le_mul_right g hnle
          _ = g * (H / g) := Nat.mul_comm _ _
        calc m = (n : ℚ) * (g : ℚ) := hmng
        _ = ((n * g : ℕ) : ℚ) := by push_cast; ring
        _ ≤ ((H - H % g : ℕ) : ℚ) := by exact_mod_cast hfin
    · intro hmT
      calc m ≤ ((H - H % g : ℕ) : ℚ) := hmT
      _ ≤ (H : ℚ) := by exact_mod_cast hTle

/-! ## The bounds of `in_range<I, F>` -/

lemma FP.le_fin_iff (s t : Bool) (m n : ℚ) :
    FP.le (FP.fin s m) (FP.fin t n) = true ↔
      (if s then -m else m) ≤ (if t then -n else n) := by
  simp [FP.le]

/-- `max_in_range` of `in_range<I, F>` is the finite value
`min(F::max(), trunc(I::max()))`, positive. -/
lemma maxInRangeIF_spec {F : Format} (hF : F.Valid) {I : IntType} (hI : I.Valid) :
    maxInRangeIF F I = FP.fin false (min F.fmax (truncHi F I)) ∧
    0 < min F.fmax (truncHi F I) := by
  have hR := hF.1
  have hP : 1 ≤ F.digits := hF.2.1
  have hhi0 : I.hi ≠ 0 := by have := hI.2; omega
  have hNdef : fdecompDigitsIF F I = F.digits := rfl
  obtain ⟨hGi, hGisb, -, -⟩ := decompOfInt_spec F.radix F.digits hR hP I.hi hhi0
  have hGisb2 : (decompOfInt F.radix F.digits I.hi).signbit = false := by
    rw [hGisb]
    simp only [decide_eq_false_iff_not, not_lt]
    have := hI.2
    omega
  obtain ⟨hGf, hGfsb, hGfil, -⟩ := decompOfFP_fin_spec hF (le_refl F.digits) false
    (Format.fmax_pos hF) (Format.RepMag.fmax_repMag hF)
  have hThipos : 0 < truncHi F I := hGi.v_eq_pos hR
  have hfmaxpos := Format.fmax_pos hF
  have hminpos : 0 < min F.fmax (truncHi F I) := lt_min hfmaxpos hThipos
  refine ⟨?_, hminpos⟩
  have hcmp : DecompRep.repLt (dimaxIF F I) (dfmaxIF F I) = true ↔ truncHi F I < F.fmax := by
    rw [dimaxIF, dfmaxIF, hNdef]
    simp only [Format.maxFP]
    rw [repLt_good_iff hR hGi hGf]
    rw [hGisb2, hGfsb]
    simp only [Bool.false_eq_true, if_false]
    exact Iff.rfl
  rw [maxInRangeIF, hNdef]
  by_cases hlt : truncHi F I < F.fmax
  · rw [if_pos (hcmp.mpr hlt)]
    have hil : (dimaxIF F I).ilogb < F.maxExp := by
      rw [dimaxIF, hNdef, hGi.ilogb_eq_log hR]
      have hbb : 1 < F.radix := by omega
      have h1 : truncHi F I < (F.radix : ℚ) ^ F.maxExp :=
        lt_trans hlt (Format.fmax_lt_zpow_maxExp hF)
      exact (Int.lt_zpow_iff_log_lt hbb hThipos).mp h1
    rw [dimaxIF, hNdef] at hil ⊢
    rw [toFP_good_exact hF hGi hil (le_refl F.digits), hGisb2]
    rw [min_eq_right (le_of_lt hlt)]
    rfl
  · rw [if_neg (fun hc => hlt (hcmp.mp hc))]
    have hil : (dfmaxIF F I).ilogb < F.maxExp := by
      rw [dfmaxIF, hNdef]
      simp only [Format.maxFP]
      rw [hGfil, Format.log_fmax hF]
      omega
    rw [dfmaxIF, hNdef] at hil ⊢
    simp only [Format.maxFP] at hil ⊢
    rw [toFP_good_exact hF hGf hil (le_refl F.digits), hGfsb]
    rw [min_eq_left (le_of_not_lt hlt)]

/-- `min_in_range` of `in_range<I, F>` for an unsigned integer type
(`I.lo = 0`): the positive zero. -/
lemma minInRangeIF_spec_zero {F : Format} (hF : F.Valid) {I : IntType} (hlo : I.lo = 0) :
    minInRangeIF F I = FP.fin false 0 := by
  have hR := hF.1
  have hNdef : fdecompDigitsIF F I = F.digits := rfl
  obtain ⟨hGf, hGfsb, -⟩ := decompOfFP_fin_spec hF (le_refl F.digits) true
    (Format.fmax_pos hF) (Format.RepMag.fmax_repMag hF)
  have hzero : (diminIF F I).category = Category.zero := by
    rw [diminIF, hlo]
    simp [decompOfInt]
  have hsb0 : (diminIF F I).signbit = false := by
    rw [diminIF, hlo]
    simp [decompOfInt]
  have hlt : DecompRep.repLt (dfminIF F I) (diminIF F I) = true :=
    repLt_neg_zero hGf hGfsb hzero
  rw [minInRangeIF, hNdef, if_pos hlt, toFP_zero_rep F F.digits hzero, hsb0]

/-- `min_in_range` of `in_range<I, F>` for a signed integer type (`I.lo < 0`):
the finite negative value `-min(F::max(), trunc(|I::lowest()|))`. -/
lemma minInRangeIF_spec_neg {F : Format} (hF : F.Valid) {I : IntType} (hlo : I.lo < 0) :
    minInRangeIF F I = FP.fin true (min F.fmax (truncLo F I)) ∧
    0 < min F.fmax (truncLo F I) := by
  have hR := hF.1
  have hP : 1 ≤ F.digits := hF.2.1
  have hlo0 : I.lo ≠ 0 := by omega
  have hNdef : fdecompDigitsIF F I = F.digits := rfl
  obtain ⟨hGi, hGisb, -, -⟩ := decompOfInt_spec F.radix F.digits hR hP I.lo hlo0
  have hGisb2 : (decompOfInt F.radix F.digits I.lo).signbit = true := by
    rw [hGisb]
    simp only [decide_eq_true_eq]
    omega
  obtain ⟨hGf, hGfsb, hGfil, -⟩ := decompOfFP_fin_spec hF (le_refl F.digits) true
    (Format.fmax_pos hF) (Format.RepMag.fmax_repMag hF)
  have hTlopos : 0 < truncLo F I := hGi.v_eq_pos hR
  have hfmaxpos := Format.fmax_pos hF
  have hminpos : 0 < min F.fmax (truncLo F I) := lt_min hfmaxpos hTlopos
  refine ⟨?_, hminpos⟩
  have hcmp : DecompRep.repLt (dfminIF F I) (diminIF F I) = true ↔ truncLo F I < F.fmax := by
    rw [dfminIF, diminIF, hNdef]
    simp only [Format.lowestFP]
    rw [repLt_good_iff hR hGf hGi]
    rw [hGisb2, hGfsb]
    simp only [if_true]
    constructor
    · intro h
      have h2 : -F.fmax < -(truncLo F I) := h
      linarith
    · intro h
      show -F.fmax < -(truncLo F I)
      linarith
  rw [minInRangeIF, hNdef]
  by_cases hlt : truncLo F I < F.fmax
  · rw [if_pos (hcmp.mpr hlt)]
    have hil : (diminIF F I).ilogb < F.maxExp := by
      rw [diminIF, hNdef, hGi.ilogb_eq_log hR]
      have hbb : 1 < F.radix := by omega
      have h1 : truncLo F I < (F.radix : ℚ) ^ F.maxExp :=
        lt_trans hlt (Format.fmax_lt_zpow_maxExp hF)
      exact (Int.lt_zpow_iff_log_lt hbb hTlopos).mp h1
    rw [diminIF, hNdef] at hil ⊢
    rw [toFP_good_exact hF hGi hil (le_refl F.digits), hGisb2]
    rw [min_eq_right (le_of_lt hlt)]
    rfl
  · rw [if_neg (fun hc => hlt (hcmp.mp hc))]
    have hil : (dfminIF F I).ilogb < F.maxExp := by
      rw [dfminIF, hNdef]
      simp only [Format.lowestFP]
      rw [hGfil, Format.log_fmax hF]
      omega
    rw [dfminIF, hNdef] at hil ⊢
    simp only [Format.lowestFP] at hil ⊢
    rw [toFP_good_exact hF hGf hil (le_refl F.digits), hGfsb]
    rw [min_eq_left (le_of_not_lt hlt)]

/-! ## Claim C1: full correctness of `in_range<I>(f)` for finite `f` -/

lemma cast_natAbs_of_nonneg {i : ℤ} (hi : 0 ≤ i) : ((i.natAbs : ℕ) : ℚ) = (i : ℚ) := by
  rw [Int.cast_natAbs, abs_of_nonneg hi]

lemma cast_natAbs_of_nonpos {i : ℤ} (hi : i ≤ 0) : ((i.natAbs : ℕ) : ℚ) = -(i : ℚ) := by
  rw [Int.cast_natAbs, abs_of_nonpos hi]
  push_cast
  ring

/-- C1: for every valid format and integer type and every finite value of the
format, `in_range<I>(f)` holds exactly when the real value of `f` lies in
`[I::lowest(), I::max()]`. -/
theorem C1_in_range_IF_iff (F : Format) (I : IntType) (hF : F.Valid) (hI : I.Valid)
    (s : Bool) (m : ℚ) (hm : F.RepMag m) :
    in_range_IF F I (FP.fin s m) = true ↔
      ((I.lo : ℚ) ≤ (FP.fin s m).val ∧ (FP.fin s m).val ≤ (I.hi : ℚ)) := by
  obtain ⟨hmax, hmaxpos⟩ := maxInRangeIF_spec hF hI
  have hm0 := Format.RepMag.nonneg hm
  have hmle := Format.RepMag.le_fmax hF hm
  have hhi1 : 1 ≤ I.hi := hI.2
  set v : ℚ := (FP.fin s m).val with hvdef
  have hv : v = if s then -m else m := rfl
  have hvle : v ≤ m := by
    cases s <;> rw [hv] <;> simp <;> linarith
  have hnegvle : -v ≤ m := by
    cases s <;> rw [hv] <;> simp <;> linarith
  have hsv_pos : 0 < v → v = m := by
    intro hvpos
    rcases Bool.eq_false_or_eq_true s with hs | hs
    · rw [hs] at hv
      simp at hv
      linarith
    · rw [hs] at hv
      simp at hv
      linarith
  have hsv_neg : v < 0 → -v = m := by
    intro hvneg
    rcases Bool.eq_false_or_eq_true s with hs | hs
    · rw [hs] at hv
      simp at hv
      linarith
    · rw [hs] at hv
      simp at hv
      linarith
  -- upper bound
  have hthHi := trunc_harmless (F := F) hF I.hi.natAbs (by omega) hm
  have hthHi2 : m ≤ ((I.hi.natAbs : ℕ) : ℚ) ↔ m ≤ truncHi F I := hthHi
  have hhicast : ((I.hi.natAbs : ℕ) : ℚ) = (I.hi : ℚ) :=
    cast_natAbs_of_nonneg (by omega)
  rw [hhicast] at hthHi2
  have hmaxiff : FP.le (FP.fin s m) (maxInRangeIF F I) = true ↔ v ≤ (I.hi : ℚ) := by
    rw [hmax, FP.le_fin_iff]
    have hlhs : (if s then -m else m) = v := hv.symm
    rw [hlhs]
    simp only [Bool.false_eq_true, if_false]
    constructor
    · intro h
      have h2 : v ≤ truncHi F I := le_trans h (min_le_right _ _)
      by_cases hvpos : 0 < v
      · have hsv : v = m := hsv_pos hvpos
        rw [hsv] at h2 ⊢
        exact hthHi2.mpr h2
      · push_neg at hvpos
        calc v ≤ 0 := hvpos
        _ ≤ (I.hi : ℚ) := by exact_mod_cast by omega
    · intro h
      apply le_min
      · exact le_trans hvle hmle
      · by_cases hvpos : 0 < v
        · have hsv : v = m := hsv_pos hvpos
          rw [hsv] at h ⊢
          exact hthHi2.mp h
        · push_neg at hvpos
          exact le_trans hvpos (le_of_lt (lt_of_lt_of_le hmaxpos (min_le_right _ _)))
  -- lower bound
  have hminiff : FP.le (minInRangeIF F I) (FP.fin s m) = true ↔ (I.lo : ℚ) ≤ v := by
    rcases eq_or_lt_of_le hI.1 with hlo0 | hlon
    · -- unsigned: lo = 0
      rw [minInRangeIF_spec_zero hF hlo0, FP.le_fin_iff]
      have hrhs : (if s then -m else m) = v := hv.symm
      rw [hrhs]
      simp only [Bool.false_eq_true, if_false, neg_zero]
      rw [hlo0]
      norm_num
    · -- signed: lo < 0
      obtain ⟨hmin, hminpos⟩ := minInRangeIF_spec_neg hF hlon
      have hTpos : 0 < truncLo F I := lt_of_lt_of_le hminpos (min_le_right _ _)
      rw [hmin, FP.le_fin_iff]
      have hrhs : (if s then -m else m) = v := hv.symm
      rw [hrhs]
      simp only [if_true]
      have hthLo := trunc_harmless (F := F) hF I.lo.natAbs (by omega) hm
      have hthLo2 : m ≤ ((I.lo.natAbs : ℕ) : ℚ) ↔ m ≤ truncLo F I := hthLo
      have hlocast : ((I.lo.natAbs : ℕ) : ℚ) = -(I.lo : ℚ) :=
        cast_natAbs_of_nonpos (le_of_lt hlon)
      rw [hlocast] at hthLo2
      constructor
      · intro h
        have h2 : -v ≤ truncLo F I := by
          have := min_le_right F.fmax (truncLo F I)
          linarith
        by_cases hvneg : v < 0
        · have hsv : -v = m := hsv_neg hvneg
          rw [hsv] at h2
          have h3 : m ≤ -(I.lo : ℚ) := hthLo2.mpr h2
          linarith
        · push_neg at hvneg
          have : (I.lo : ℚ) ≤ 0 := by exact_mod_cast le_of_lt hlon
          linarith
      · intro h
        have hgoal : -(min F.fmax (truncLo F I)) ≤ v := by
          rw [neg_le]
          apply le_min
          · exact le_trans hnegvle hmle
          · by_cases hvneg : v < 0
            · have hsv : -v = m := hsv_neg hvneg
              rw [hsv]
              apply hthLo2.mp
              linarith
            · push_neg at hvneg
              linarith
        exact hgoal
  rw [in_range_IF, Bool.and_eq_true, hminiff, hmaxiff]

/-- C7: `in_range<I>(f)` rejects NaN and both infinities. -/
theorem C7_in_range_IF_nonfinite (F : Format) (I : IntType) (hF : F.Valid) (hI : I.Valid) :
    in_range_IF F I FP.nan = false ∧ in_range_IF F I (FP.inf false) = false ∧
    in_range_IF F I (FP.inf true) = false := by
  obtain ⟨hmax, -⟩ := maxInRangeIF_spec hF hI
  have hminfin : ∃ s0 v0, minInRangeIF F I = FP.fin s0 v0 := by
    rcases eq_or_lt_of_le hI.1 with hlo0 | hlon
    · exact ⟨false, 0, minInRangeIF_spec_zero hF hlo0⟩
    · obtain ⟨hmin, -⟩ := minInRangeIF_spec_neg hF hlon
      exact ⟨true, _, hmin⟩
  obtain ⟨s0, v0, hmin⟩ := hminfin
  refine ⟨?_, ?_, ?_⟩
  · rw [in_range_IF, hmin]
    simp [FP.le]
  · rw [in_range_IF, hmin, hmax]
    simp [FP.le]
  · rw [in_range_IF, hmin, hmax]
    simp [FP.le]

/-- Witness for C1: instantiated at `binary32`/`int32` and the value `1.0`. -/
theorem C1_in_range_IF_iff_witness :
    in_range_IF binary32 int32 (FP.fin false 1) = true ↔
      ((int32.lo : ℚ) ≤ (FP.fin false 1).val ∧ (FP.fin false 1).val ≤ (int32.hi : ℚ)) :=
  C1_in_range_IF_iff binary32 int32 ⟨by decide, by decide, by decide, by decide⟩
    ⟨by decide, by decide⟩ false 1
    ⟨1, 0, by norm_num, by decide, by decide, by decide⟩

/-! ## Claim C3: the digit capacity used by `in_range<I, F>` -/

/-- Counterexample to C3 as stated: for `binary32`/`int32` the shared digit
capacity used by `in_range<I, F>` is `F::digits = 24`, which is NOT at least
`max(F's precision, digit-count of I's extremes) = 32`
(`count_digits(INT32_MIN) = 32`, `count_digits(INT32_MAX) = 31`). -/
theorem C3_counterexample :
    ¬ (max binary32.digits (max (count_digits binary32.radix int32.lo)
        (count_digits binary32.radix int32.hi)) ≤ fdecompDigitsIF binary32 int32) := by
  have hlo : count_digits binary32.radix int32.lo = 32 := by
    show countDigitsNat 2 (int32.lo.natAbs) = 32
    rw [countDigitsNat_eq_log 2 (by decide)]
    have hlog : Nat.log 2 (int32.lo.natAbs) = 31 :=
      Nat.log_eq_of_pow_le_of_lt_pow (by decide) (by decide)
    omega
  have hhi : count_digits binary32.radix int32.hi = 31 := by
    show countDigitsNat 2 (int32.hi.natAbs) = 31
    rw [countDigitsNat_eq_log 2 (by decide)]
    have hlog : Nat.log 2 (int32.hi.natAbs) = 30 :=
      Nat.log_eq_of_pow_le_of_lt_pow (by decide) (by decide)
    omega
  rw [hlo, hhi]
  show ¬ (max 24 (max 32 31) ≤ 24)
  omega

/-- C3 (amended): `in_range<I, F>` decomposes all four extremes with radix
`F::radix` and digit capacity exactly `F::digits` — possibly fewer digits than
`I`'s extremes need, in which case the integer extremes are truncated; the
truncation is harmless in that the truncated bound classifies every
representable magnitude of `F` exactly as the untruncated bound would. -/
theorem C3_capacity_exact (F : Format) (I : IntType) (hF : F.Valid) (hI : I.Valid) :
    fdecompDigitsIF F I = F.digits ∧
    diminIF F I = decompOfInt F.radix F.digits I.lo ∧
    dimaxIF F I = decompOfInt F.radix F.digits I.hi ∧
    (∀ m : ℚ, F.RepMag m →
      (m ≤ ((I.hi.natAbs : ℕ) : ℚ) ↔ m ≤ truncHi F I)) ∧
    (∀ m : ℚ, F.RepMag m →
      (m ≤ ((I.lo.natAbs : ℕ) : ℚ) ↔ m ≤ truncLo F I)) := by
  refine ⟨rfl, rfl, rfl, ?_, ?_⟩
  · intro m hm
    exact trunc_harmless hF I.hi.natAbs (by have := hI.2; omega) hm
  · intro m hm
    rcases eq_or_lt_of_le hI.1 with hlo0 | hlon
    · -- unsigned `I`: the lower extreme is 0 and its truncation is 0
      have h1 : I.lo.natAbs = 0 := by omega
      have h2 : truncLo F I = 0 := by
        rw [truncLo, h1]
        simp
      rw [h1, h2]
      norm_num
    · exact trunc_harmless hF I.lo.natAbs (by omega) hm

/-- Witness for C3 (amended): instantiated at `binary32`/`int32` . -/
theorem C3_capacity_exact_witness :
    fdecompDigitsIF binary32 int32 = binary32.digits ∧
    diminIF binary32 int32 = decompOfInt binary32.radix binary32.digits int32.lo ∧
    dimaxIF binary32 int32 = decompOfInt binary32.radix binary32.digits int32.hi ∧
    (∀ m : ℚ, binary32.RepMag m →
      (m ≤ ((int32.hi.natAbs : ℕ) : ℚ) ↔ m ≤ truncHi binary32 int32)) ∧
    (∀ m : ℚ, binary32.RepMag m →
      (m ≤ ((int32.lo.natAbs : ℕ) : ℚ) ↔ m ≤ truncLo binary32 int32)) :=
  C3_capacity_exact binary32 int32 ⟨by decide, by decide, by decide, by decide⟩
    ⟨by decide, by decide⟩

/-! ## Claim C4: the bounds of `in_range<F, I>` -/

/-- A zero representation is not less than a finite negative representation. -/
lemma repLt_zero_neg {R N : ℕ} {a b : DecompRep} {vb : ℚ}
    (ha : a.category = Category.zero) (hb : GoodRep R N b vb) (hsb : b.signbit = true) :
    DecompRep.repLt a b = false := by
  obtain ⟨hb1, hb2, hb3, hb4, hb5⟩ := finite_flags hb.cat
  have ha1 : DecompRep.isnanR a = false := by simp [DecompRep.isnanR, ha]
  have ha2 : DecompRep.isinfR a = false := by simp [DecompRep.isinfR, ha]
  have ha3 : DecompRep.iszeroR a = true := by simp [DecompRep.iszeroR, ha]
  have ha4 : DecompRep.isnegR a = false := by
    rw [DecompRep.isnegR, ha3]
    simp
  rw [DecompRep.repLt, ha1, hb1, ha2, hb2, ha3, hb3, ha4, hb5, hsb]
  simp

/-- At the capacity used by `in_range<F, I>` the integer extremes decompose
exactly: no digits are dropped. -/
lemma decompOfInt_exact (R N : ℕ) (hR : 2 ≤ R) (hN : 1 ≤ N) (i : ℤ) (hi : i ≠ 0)
    (hdc : count_digits R i ≤ N) :
    GoodRep R N (decompOfInt R N i) ((i.natAbs : ℕ) : ℚ) ∧
    (decompOfInt R N i).signbit = decide (i < 0) ∧
    (decompOfInt R N i).ilogb = (count_digits R i : ℤ) - 1 := by
  obtain ⟨hG, hsb, -, hil⟩ := decompOfInt_spec R N hR hN i hi
  have hz : count_digits R i - N = 0 := by omega
  rw [hz, pow_zero, Nat.mod_one, Nat.sub_zero] at hG
  exact ⟨hG, hsb, hil⟩

lemma Format.one_le_fmax {F : Format} (hF : F.Valid) : (1 : ℚ) ≤ F.fmax := by
  have h := Format.zpow_maxExp_sub_one_le_fmax hF
  have h0 : (F.radix : ℚ) ^ (0 : ℤ) ≤ (F.radix : ℚ) ^ (F.maxExp - 1) := by
    apply zpow_le_zpow_right₀ (le_of_lt (Format.radix_q_one_lt hF))
    have h1 := hF.2.1
    have h2 := hF.2.2.2
    omega
  rw [zpow_zero] at h0
  linarith

/-- `max_in_range` of `in_range<F, I>`: `dfmax < dimax ? I(fmax) : imax`
evaluates to `min(I::max(), floor(F::max()))`. -/
lemma maxInRangeFI_spec {F : Format} (hF : F.Valid) {I : IntType} (hI : I.Valid) :
    maxInRangeFI F I = min I.hi ⌊F.fmax⌋ := by
  have hR := hF.1
  have hP := hF.2.1
  set N := fdecompDigitsFI F I with hNdef
  have hN1 : 1 ≤ N := le_trans hP (le_max_left _ _)
  have hNF : F.digits ≤ N := le_max_left _ _
  have hdchi : count_digits F.radix I.hi ≤ N :=
    le_trans (le_max_right (count_digits F.radix I.lo) _) (le_max_right F.digits _)
  have hhi0 : I.hi ≠ 0 := by have := hI.2; omega
  obtain ⟨hGi, hsbi, -⟩ := decompOfInt_exact F.radix N hR hN1 I.hi hhi0 hdchi
  have hsbi2 : (decompOfInt F.radix N I.hi).signbit = false := by
    rw [hsbi]
    apply decide_eq_false
    have := hI.2
    omega
  obtain ⟨hGf, hsbf, -⟩ := decompOfFP_fin_spec hF hNF false
    (Format.fmax_pos hF) (Format.RepMag.fmax_repMag hF)
  have hhicast : ((I.hi.natAbs : ℕ) : ℚ) = (I.hi : ℚ) :=
    cast_natAbs_of_nonneg (by have := hI.2; omega)
  have hcmp : DecompRep.repLt (dfmaxFI F I) (dimaxFI F I) = true ↔ F.fmax < (I.hi : ℚ) := by
    rw [dfmaxFI, dimaxFI, ← hNdef]
    simp only [Format.maxFP]
    rw [repLt_good_iff hR hGf hGi, hsbf, hsbi2]
    simp only [Bool.false_eq_true, if_false]
    rw [hhicast]
  rw [maxInRangeFI]
  by_cases hlt : F.fmax < (I.hi : ℚ)
  · rw [if_pos (hcmp.mpr hlt)]
    have heval : intOfFPTrunc F.maxFP = ⌊F.fmax⌋ := rfl
    rw [heval, min_eq_right]
    have hfl : ((⌊F.fmax⌋ : ℤ) : ℚ) ≤ F.fmax := Int.floor_le F.fmax
    have : ((⌊F.fmax⌋ : ℤ) : ℚ) < ((I.hi : ℤ) : ℚ) := lt_of_le_of_lt hfl hlt
    exact_mod_cast le_of_lt this
  · rw [if_neg (fun hc => hlt (hcmp.mp hc))]
    rw [min_eq_left]
    apply Int.le_floor.mpr
    exact le_of_not_lt hlt

/-- `min_in_range` of `in_range<F, I>`: `dimin < dfmin ? I(fmin) : imin`
evaluates to `max(I::lowest(), -floor(F::max()))`. -/
lemma minInRangeFI_spec {F : Format} (hF : F.Valid) {I : IntType} (hI : I.Valid) :
    minInRangeFI F I = max I.lo (-⌊F.fmax⌋) := by
  have hR := hF.1
  have hP := hF.2.1
  set N := fdecompDigitsFI F I with hNdef
  have hN1 : 1 ≤ N := le_trans hP (le_max_left _ _)
  have hNF : F.digits ≤ N := le_max_left _ _
  obtain ⟨hGf, hsbf, -⟩ := decompOfFP_fin_spec hF hNF true
    (Format.fmax_pos hF) (Format.RepMag.fmax_repMag hF)
  have hfl1 : 1 ≤ ⌊F.fmax⌋ := Int.le_floor.mpr (by exact_mod_cast Format.one_le_fmax hF)
  rcases eq_or_lt_of_le hI.1 with hlo0 | hlon
  · -- unsigned: dimin is a zero representation, the comparator keeps `imin`
    have hcat : (decompOfInt F.radix N I.lo).category = Category.zero := by
      rw [hlo0]
      simp [decompOfInt]
    have hfalse : DecompRep.repLt (diminFI F I) (dfminFI F I) = false := by
      rw [diminFI, dfminFI, ← hNdef]
      simp only [Format.lowestFP]
      exact repLt_zero_neg hcat hGf hsbf
    rw [minInRangeFI, hfalse]
    simp only [Bool.false_eq_true, if_false]
    rw [max_eq_left]
    omega
  · -- signed: both sides are good representations; compare the signed values
    have hlo0 : I.lo ≠ 0 := by omega
    have hdclo : count_digits F.radix I.lo ≤ N :=
      le_trans (le_max_left _ (count_digits F.radix I.hi)) (le_max_right F.digits _)
    obtain ⟨hGi, hsbi, -⟩ := decompOfInt_exact F.radix N hR hN1 I.lo hlo0 hdclo
    have hsbi2 : (decompOfInt F.radix N I.lo).signbit = true := by
      rw [hsbi]
      simp only [decide_eq_true_eq]
      omega
    have hlocast : ((I.lo.natAbs : ℕ) : ℚ) = -(I.lo : ℚ) :=
      cast_natAbs_of_nonpos (le_of_lt hlon)
    have hcmp : DecompRep.repLt (diminFI F I) (dfminFI F I) = true ↔ (I.lo : ℚ) < -F.fmax := by
      rw [diminFI, dfminFI, ← hNdef]
      simp only [Format.lowestFP]
      rw [repLt_good_iff hR hGi hGf, hsbi2, hsbf]
      simp only [if_true]
      rw [hlocast]
      constructor
      · intro h
        linarith
      · intro h
        show -(-(I.lo : ℚ)) < -F.fmax
        linarith
    rw [minInRangeFI]
    by_cases hlt : (I.lo : ℚ) < -F.fmax
    · rw [if_pos (hcmp.mpr hlt)]
      have heval : intOfFPTrunc F.lowestFP = -⌊F.fmax⌋ := rfl
      rw [heval, max_eq_right]
      have hfl : ((⌊F.fmax⌋ : ℤ) : ℚ) ≤ F.fmax := Int.floor_le F.fmax
      have : ((I.lo : ℤ) : ℚ) < ((-⌊F.fmax⌋ : ℤ) : ℚ) := by
        push_cast
        linarith
      exact_mod_cast le_of_lt this
    · rw [if_neg (fun hc => hlt (hcmp.mp hc))]
      rw [max_eq_left]
      have h1 : -F.fmax ≤ (I.lo : ℚ) := le_of_not_lt hlt
      have h2 : (-(I.lo : ℤ) : ℤ) ≤ ⌊F.fmax⌋ := by
        apply Int.le_floor.mpr
        push_cast
        linarith
      omega

/-- Counterexample to C4 as stated: for `binary16`/`int32` the floating bound
is tighter (`F::max() = 65504 < I::max()`), yet `max_in_range` is NOT the
integer type's own extreme `I::max()` — the code saturates to `I(F::max())`
instead. -/
theorem C4_counterexample :
    Format.fmax binary16 < ((2 ^ 31 - 1 : ℤ) : ℚ) ∧
    int32.hi = 2 ^ 31 - 1 ∧
    maxInRangeFI binary16 int32 ≠ int32.hi := by
  have hfmax : Format.fmax binary16 = 65504 := by
    show ((2 : ℚ) ^ (11 : ℕ) - 1) * (2 : ℚ) ^ ((16 : ℤ) - 11) = 65504
    norm_num
  have hspec := maxInRangeFI_spec (F := binary16) (I := int32)
    ⟨by decide, by decide, by decide, by decide⟩ ⟨by decide, by decide⟩
  have hfloor : ⌊Format.fmax binary16⌋ = 65504 := by
    rw [hfmax]
    exact Int.floor_intCast 65504
  refine ⟨?_, rfl, ?_⟩
  · rw [hfmax]
    norm_num
  · rw [hspec, hfloor]
    decide

/-- C4 (amended): the bounds of `in_range<F, I>` are produced by comparing the
decomposed floating extremes against the decomposed integer extremes, and the
winning bound is: the floating extreme truncated to an integer (`I(fmax)` /
`I(fmin)`) when the floating bound is tighter, and the integer type's own
extreme otherwise — i.e. `max(I::lowest(), -floor(F::max()))` and
`min(I::max(), floor(F::max()))`. -/
theorem C4_bounds_FI (F : Format) (I : IntType) (hF : F.Valid) (hI : I.Valid) :
    minInRangeFI F I = max I.lo (-⌊F.fmax⌋) ∧
    maxInRangeFI F I = min I.hi ⌊F.fmax⌋ ∧
    (∀ i : ℤ, in_range_FI F I i = true ↔
      (max I.lo (-⌊F.fmax⌋) ≤ i ∧ i ≤ min I.hi ⌊F.fmax⌋)) := by
  have hmin := minInRangeFI_spec hF hI
  have hmax := maxInRangeFI_spec hF hI
  refine ⟨hmin, hmax, ?_⟩
  intro i
  rw [in_range_FI, hmin, hmax]
  simp

/-- Witness for C4 (amended): instantiated at `binary16`/`int32`. -/
theorem C4_bounds_FI_witness :
    minInRangeFI binary16 int32 = max int32.lo (-⌊Format.fmax binary16⌋) ∧
    maxInRangeFI binary16 int32 = min int32.hi ⌊Format.fmax binary16⌋ ∧
    (∀ i : ℤ, in_range_FI binary16 int32 i = true ↔
      (max int32.lo (-⌊Format.fmax binary16⌋) ≤ i ∧
        i ≤ min int32.hi ⌊Format.fmax binary16⌋)) :=
  C4_bounds_FI binary16 int32 ⟨by decide, by decide, by decide, by decide⟩
    ⟨by decide, by decide⟩

/-! ## Claim C2: round-trip exactness of the codec -/

/-- `operator F` is exact on any well-formed representation whose digits beyond
`F::digits` are all zero, for any capacity `N` (wide or narrow). -/
lemma toFP_good_exact_wide {F : Format} (hF : F.Valid) {N : ℕ} {rep : DecompRep} {v : ℚ}
    (h : GoodRep F.radix N rep v) (hil : rep.ilogb < F.maxExp)
    (hzero : ∀ d ∈ rep.digits.drop F.digits, d = 0) :
    toFP F N rep = FP.fin rep.signbit v := by
  obtain ⟨heq, -, -⟩ := toFP_good_eval hF h hil
  rw [heq]
  congr 1
  have hdz : ∀ d ∈ rep.digits.drop (min F.digits N), d = 0 := by
    rcases le_total F.digits N with hPN | hNP
    · rw [min_eq_left hPN]
      exact hzero
    · rw [min_eq_right hNP]
      rw [List.drop_eq_nil_of_le (by rw [h.len])]
      intro d hd
      simp at hd
  rw [digitsVal_take_of_drop_zero F.radix rep.digits (min F.digits N) hdz, h.val]

/-- C2: for every representable finite value of a format (including both signed
zeros) and every digit capacity `N ≥ F::digits`, decomposing with `decomp(F)`
and converting back with `operator F` reproduces the value exactly, sign
included. -/
theorem C2_roundtrip (F : Format) (N : ℕ) (hF : F.Valid) (hN : F.digits ≤ N)
    (s : Bool) (m : ℚ) (hm : F.RepMag m) :
    toFP F N (decompOfFP F N (FP.fin s m)) = FP.fin s m := by
  rcases eq_or_lt_of_le (Format.RepMag.nonneg hm) with hm0 | hmpos
  · rw [← hm0, decompOfFP_zero_spec]
    rw [toFP_zero_rep F N rfl]
  · obtain ⟨hG, hsb, hil, hdz⟩ := decompOfFP_fin_spec hF hN s hmpos hm
    have hilmax : (decompOfFP F N (FP.fin s m)).ilogb < F.maxExp := by
      rw [hil]
      have hb : 1 < F.radix := by have := hF.1; omega
      have hlt : m < (F.radix : ℚ) ^ F.maxExp :=
        lt_of_le_of_lt (Format.RepMag.le_fmax hF hm) (Format.fmax_lt_zpow_maxExp hF)
      exact (Int.lt_zpow_iff_log_lt hb hmpos).mp hlt
    rw [toFP_good_exact_wide hF hG hilmax hdz, hsb]

/-- Witness for C2: the negative value `-1.0` of `binary32` round-trips at the
wide capacity `N = 32`. -/
theorem C2_roundtrip_witness :
    toFP binary32 32 (decompOfFP binary32 32 (FP.fin true 1)) = FP.fin true 1 :=
  C2_roundtrip binary32 32 ⟨by decide, by decide, by decide, by decide⟩ (by decide)
    true 1 ⟨1, 0, by norm_num, by decide, by decide, by decide⟩

/-! ## Claim C8: integer truncation drops low digits, error below one ulp -/

/-- C8: decomposing an integer `i` whose digit count exceeds the capacity `N`
drops the excess least-significant digits without rounding: reconstructing the
truncated representation (into any same-radix format wide enough to hold it)
yields a value of the same sign, of magnitude at most `|i|` (truncation toward
zero, never away), differing from `i` by strictly less than one unit in the
place value of the last retained digit, `R^(digit_count - N)`. -/
theorem C8_truncation (R N : ℕ) (hR : 2 ≤ R) (hN : 1 ≤ N) (i : ℤ)
    (hdc : N < count_digits R i) (F : Format) (hF : F.Valid) (hFR : F.radix = R)
    (hFd : N ≤ F.digits) (hFe : (count_digits R i : ℤ) ≤ F.maxExp) :
    ∃ v : ℚ, toFP F N (decompOfInt R N i) = FP.fin (decide (i < 0)) v ∧
      |(FP.fin (decide (i < 0)) v).val| ≤ |(i : ℚ)| ∧
      |(i : ℚ) - (FP.fin (decide (i < 0)) v).val| <
        (R : ℚ) ^ (count_digits R i - N) := by
  subst hFR
  have hi : i ≠ 0 := by
    intro h0
    rw [h0] at hdc
    have h1 : count_digits F.radix 0 = 1 := by
      show countDigitsNat F.radix 0 = 1
      rw [countDigitsNat_eq_log F.radix hR, Nat.log_zero_right]
    omega
  obtain ⟨hG, hsb, -, hil⟩ := decompOfInt_spec F.radix N hR hN i hi
  set dc := count_digits F.radix i with hdcdef
  set g := F.radix ^ (dc - N) with hgdef
  set u := i.natAbs with hudef
  set v : ℚ := ((u - u % g : ℕ) : ℚ) with hvdef
  have hilmax : (decompOfInt F.radix N i).ilogb < F.maxExp := by
    rw [hil]
    omega
  have heq := toFP_good_exact hF hG hilmax hFd
  have hgpos : 0 < g := Nat.pos_pow_of_pos _ (by omega)
  have hmodlt : u % g < g := Nat.mod_lt u hgpos
  have hmodle : u % g ≤ u := Nat.mod_le u g
  have hvnn : (0 : ℚ) ≤ v := by
    rw [hvdef]
    exact Nat.cast_nonneg _
  have hveq : v = (u : ℚ) - ((u % g : ℕ) : ℚ) := by
    rw [hvdef, Nat.cast_sub hmodle]
  have hgcast : ((g : ℕ) : ℚ) = (F.radix : ℚ) ^ (dc - N) := by
    rw [hgdef]
    push_cast
    ring
  have hmodcast : ((u % g : ℕ) : ℚ) < (F.radix : ℚ) ^ (dc - N) := by
    rw [← hgcast]
    exact_mod_cast hmodlt
  have hmodnn : (0 : ℚ) ≤ ((u % g : ℕ) : ℚ) := Nat.cast_nonneg _
  have habs : ((u : ℕ) : ℚ) = |(i : ℚ)| := by
    rw [hudef, Int.cast_natAbs, Int.cast_abs]
  refine ⟨v, ?_, ?_, ?_⟩
  · rw [heq, hsb]
  · have habsval : |(FP.fin (decide (i < 0)) v).val| = v := by
      have hval : (FP.fin (decide (i < 0)) v).val =
          if decide (i < 0) = true then -v else v := rfl
      rw [hval]
      rcases Bool.eq_false_or_eq_true (decide (i < 0)) with hd | hd <;> rw [hd]
      · simp [abs_neg, abs_of_nonneg hvnn]
      · simp [abs_neg, abs_of_nonneg hvnn]
    rw [habsval, ← habs, hveq]
    linarith
  · by_cases hineg : i < 0
    · have hd : decide (i < 0) = true := decide_eq_true hineg
      have hval : (FP.fin (decide (i < 0)) v).val = -v := by
        show (if decide (i < 0) = true then -v else v) = -v
        rw [hd]
        simp
      have hicast : (i : ℚ) = -((u : ℕ) : ℚ) := by
        have h1 := cast_natAbs_of_nonpos (le_of_lt hineg)
        rw [hudef]
        linarith
      rw [hval, hicast, hveq]
      have hsimp : -((u : ℕ) : ℚ) - -((u : ℚ) - ((u % g : ℕ) : ℚ)) =
          -(((u % g : ℕ) : ℚ)) := by ring
      rw [hsimp, abs_neg, abs_of_nonneg hmodnn]
      exact hmodcast
    · have hd : decide (i < 0) = false := decide_eq_false hineg
      have hval : (FP.fin (decide (i < 0)) v).val = v := by
        show (if decide (i < 0) = true then -v else v) = v
        rw [hd]
        simp
      have hicast : (i : ℚ) = ((u : ℕ) : ℚ) := by
        have h1 := cast_natAbs_of_nonneg (le_of_not_lt hineg)
        rw [hudef]
        linarith
      rw [hval, hicast, hveq]
      have hsimp : ((u : ℕ) : ℚ) - ((u : ℚ) - ((u % g : ℕ) : ℚ)) =
          ((u % g : ℕ) : ℚ) := by ring
      rw [hsimp, abs_of_nonneg hmodnn]
      exact hmodcast

/-- Witness for C8: `i = 13` (binary `1101`, 4 digits) at capacity `N = 3`
into `tinyFmt` (3 digits). -/
theorem C8_truncation_witness :
    3 < count_digits 2 13 ∧
    (∃ v : ℚ, toFP tinyFmt 3 (decompOfInt 2 3 13) = FP.fin (decide ((13 : ℤ) < 0)) v ∧
      |(FP.fin (decide ((13 : ℤ) < 0)) v).val| ≤ |((13 : ℤ) : ℚ)| ∧
      |((13 : ℤ) : ℚ) - (FP.fin (decide ((13 : ℤ) < 0)) v).val| <
        (2 : ℚ) ^ (count_digits 2 13 - 3)) := by
  have hdc : count_digits 2 13 = 4 := by
    show countDigitsNat 2 (Int.natAbs 13) = 4
    rw [countDigitsNat_eq_log 2 (by decide)]
    have hlog : Nat.log 2 (Int.natAbs 13) = 3 :=
      Nat.log_eq_of_pow_le_of_lt_pow (by decide) (by decide)
    omega
  constructor
  · omega
  · exact C8_truncation 2 3 (by decide) (by decide) 13 (by omega) tinyFmt
      ⟨by decide, by decide, by decide, by decide⟩ rfl (by decide)
      (by rw [hdc]; decide)

/-! ## Claim C10: `in_range<Dst, Src>` rejects all non-finite sources -/

/-- `max_in_range` of `in_range<Dst, Src>` is a finite positive value. -/
lemma maxInRangeFF_finite {Dst Src : Format} (hD : Dst.Valid) (hS : Src.Valid)
    (hrad : Dst.radix = Src.radix) :
    ∃ m : ℚ, 0 < m ∧ maxInRangeFF Dst Src = FP.fin false m := by
  set N := fdecompDigitsFF Dst Src with hNdef
  have hND : Dst.digits ≤ N := le_max_left _ _
  have hNS : Src.digits ≤ N := le_max_right _ _
  have hRS : 2 ≤ Src.radix := hS.1
  obtain ⟨hGd, hsbd, hild, -⟩ := decompOfFP_fin_spec hD hND false
    (Format.fmax_pos hD) (Format.RepMag.fmax_repMag hD)
  obtain ⟨hGs, hsbs, hils, -⟩ := decompOfFP_fin_spec hS hNS false
    (Format.fmax_pos hS) (Format.RepMag.fmax_repMag hS)
  rw [hrad] at hGd hild
  have hunfold : maxInRangeFF Dst Src =
      toFP Src N (if DecompRep.repLt (decompOfFP Src N (FP.fin false Src.fmax))
          (decompOfFP Dst N (FP.fin false Dst.fmax))
        then decompOfFP Src N (FP.fin false Src.fmax)
        else decompOfFP Dst N (FP.fin false Dst.fmax)) := rfl
  have hcmp := repLt_good_iff hRS hGs hGd
  rw [hsbs, hsbd] at hcmp
  simp only [Bool.false_eq_true, if_false] at hcmp
  by_cases hlt : DecompRep.repLt (decompOfFP Src N (FP.fin false Src.fmax))
      (decompOfFP Dst N (FP.fin false Dst.fmax)) = true
  · rw [hunfold, if_pos hlt]
    have hilmax : (decompOfFP Src N (FP.fin false Src.fmax)).ilogb < Src.maxExp := by
      rw [hils, Format.log_fmax hS]
      omega
    obtain ⟨heq, hdv1, -⟩ := toFP_good_eval hS hGs hilmax
    rw [hsbs] at heq
    refine ⟨_, ?_, heq⟩
    have hz := zpow_pos (Format.radix_q_pos hS) (decompOfFP Src N (FP.fin false Src.fmax)).ilogb
    nlinarith
  · rw [hunfold, if_neg hlt]
    have hle : Dst.fmax ≤ Src.fmax := le_of_not_lt (fun hc => hlt (hcmp.mpr hc))
    have hilmax : (decompOfFP Dst N (FP.fin false Dst.fmax)).ilogb < Src.maxExp := by
      rw [hild]
      have h1 : Int.log Src.radix Dst.fmax ≤ Int.log Src.radix Src.fmax :=
        Int.log_mono_right (Format.fmax_pos hD) hle
      rw [Format.log_fmax hS] at h1
      omega
    obtain ⟨heq, hdv1, -⟩ := toFP_good_eval hS hGd hilmax
    rw [hsbd] at heq
    refine ⟨_, ?_, heq⟩
    have hz := zpow_pos (Format.radix_q_pos hS) (decompOfFP Dst N (FP.fin false Dst.fmax)).ilogb
    nlinarith

/-- `min_in_range` of `in_range<Dst, Src>` is a finite negative-signed value. -/
lemma minInRangeFF_finite {Dst Src : Format} (hD : Dst.Valid) (hS : Src.Valid)
    (hrad : Dst.radix = Src.radix) :
    ∃ m : ℚ, 0 < m ∧ minInRangeFF Dst Src = FP.fin true m := by
  set N := fdecompDigitsFF Dst Src with hNdef
  have hND : Dst.digits ≤ N := le_max_left _ _
  have hNS : Src.digits ≤ N := le_max_right _ _
  have hRS : 2 ≤ Src.radix := hS.1
  obtain ⟨hGd, hsbd, hild, -⟩ := decompOfFP_fin_spec hD hND true
    (Format.fmax_pos hD) (Format.RepMag.fmax_repMag hD)
  obtain ⟨hGs, hsbs, hils, -⟩ := decompOfFP_fin_spec hS hNS true
    (Format.fmax_pos hS) (Format.RepMag.fmax_repMag hS)
  rw [hrad] at hGd hild
  have hunfold : minInRangeFF Dst Src =
      toFP Src N (if DecompRep.repLt (decompOfFP Dst N (FP.fin true Dst.fmax))
          (decompOfFP Src N (FP.fin true Src.fmax))
        then decompOfFP Src N (FP.fin true Src.fmax)
        else decompOfFP Dst N (FP.fin true Dst.fmax)) := rfl
  have hcmp := repLt_good_iff hRS hGd hGs
  rw [hsbs, hsbd] at hcmp
  simp only [if_true] at hcmp
  by_cases hlt : DecompRep.repLt (decompOfFP Dst N (FP.fin true Dst.fmax))
      (decompOfFP Src N (FP.fin true Src.fmax)) = true
  · rw [hunfold, if_pos hlt]
    have hilmax : (decompOfFP Src N (FP.fin true Src.fmax)).ilogb < Src.maxExp := by
      rw [hils, Format.log_fmax hS]
      omega
    obtain ⟨heq, hdv1, -⟩ := toFP_good_eval hS hGs hilmax
    rw [hsbs] at heq
    refine ⟨_, ?_, heq⟩
    have hz := zpow_pos (Format.radix_q_pos hS) (decompOfFP Src N (FP.fin true Src.fmax)).ilogb
    nlinarith
  · rw [hunfold, if_neg hlt]
    have hle : Dst.fmax ≤ Src.fmax := by
      by_contra hc
      push_neg at hc
      apply hlt
      apply hcmp.mpr
      linarith
    have hilmax : (decompOfFP Dst N (FP.fin true Dst.fmax)).ilogb < Src.maxExp := by
      rw [hild]
      have h1 : Int.log Src.radix Dst.fmax ≤ Int.log Src.radix Src.fmax :=
        Int.log_mono_right (Format.fmax_pos hD) hle
      rw [Format.log_fmax hS] at h1
      omega
    obtain ⟨heq, hdv1, -⟩ := toFP_good_eval hS hGd hilmax
    rw [hsbd] at heq
    refine ⟨_, ?_, heq⟩
    have hz := zpow_pos (Format.radix_q_pos hS) (decompOfFP Dst N (FP.fin true Dst.fmax)).ilogb
    nlinarith

/-- C10: for same-radix floating formats `Dst` and `Src` (including
`Dst = Src`), `in_range<Dst>(f)` rejects NaN and both infinities: only finite
sources can be reported in range. -/
theorem C10_in_range_FF_nonfinite (Dst Src : Format) (hD : Dst.Valid) (hS : Src.Valid)
    (hrad : Dst.radix = Src.radix) :
    in_range_FF Dst Src FP.nan = false ∧ in_range_FF Dst Src (FP.inf false) = false ∧
    in_range_FF Dst Src (FP.inf true) = false := by
  obtain ⟨mmax, -, hmax⟩ := maxInRangeFF_finite hD hS hrad
  obtain ⟨mmin, -, hmin⟩ := minInRangeFF_finite hD hS hrad
  refine ⟨?_, ?_, ?_⟩
  · rw [in_range_FF, hmin]
    simp [FP.le]
  · rw [in_range_FF, hmin, hmax]
    simp [FP.le]
  · rw [in_range_FF, hmin, hmax]
    simp [FP.le]

/-- Witness for C10: instantiated at `Dst = Src = binary32`. -/
theorem C10_in_range_FF_nonfinite_witness :
    in_range_FF binary32 binary32 FP.nan = false ∧
    in_range_FF binary32 binary32 (FP.inf false) = false ∧
    in_range_FF binary32 binary32 (FP.inf true) = false :=
  C10_in_range_FF_nonfinite binary32 binary32
    ⟨by decide, by decide, by decide, by decide⟩
    ⟨by decide, by decide, by decide, by decide⟩ rfl

/-! ## Claim C9: the fallbacks agree with the platform primitives -/

/-- On non-NaN values the fallback `signbit` reads off the structural sign. -/
lemma signbit_eq_sign {F : Format} {f : FP} (hf : F.IsVal f) (hnan : f ≠ FP.nan) :
    ConstexprCmath.signbit f = f.sign := by
  cases f with
  | nan => exact absurd rfl hnan
  | inf s =>
      rw [ConstexprCmath.signbit_inf]
      rfl
  | fin s m =>
      have hm : F.RepMag m := hf
      rcases eq_or_lt_of_le (Format.RepMag.nonneg hm) with h0 | hpos
      · rw [← h0, ConstexprCmath.signbit_fin_zero]
        rfl
      · rw [ConstexprCmath.signbit_fin_pos hpos]
        rfl

/-- C9 (the platform `std::` side is modelled from the spec): on every value of
the format, the portable constant-evaluation fallback and the platform
primitive agree — `fpclassify` on all inputs including NaN, `signbit` on all
non-NaN inputs (the NaN sign bit being excluded), `copysign` on non-NaN
operands, and `ilogb` and `scalbn` on all values. -/
theorem C9_fallback_agreement (F : Format) (hF : F.Valid) :
    (∀ f : FP, F.IsVal f → ConstexprCmath.fpclassify F f = stdFpclassify F f) ∧
    (∀ f : FP, F.IsVal f → f ≠ FP.nan → ConstexprCmath.signbit f = stdSignbit f) ∧
    (∀ f s : FP, F.IsVal f → F.IsVal s → f ≠ FP.nan → s ≠ FP.nan →
      ConstexprCmath.copysign f s = stdCopysign f s) ∧
    (∀ f : FP, F.IsVal f → ConstexprCmath.ilogb F f = stdIlogb F f) ∧
    (∀ f : FP, F.IsVal f → ∀ e : ℤ, ConstexprCmath.scalbn F f e = stdScalbn F f e) := by
  refine ⟨?_, ?_, ?_, ?_, ?_⟩
  · intro f hf
    cases f with
    | nan =>
        rw [ConstexprCmath.fpclassify_nan]
        rfl
    | inf s =>
        rw [ConstexprCmath.fpclassify_inf]
        rfl
    | fin s m =>
        have hm : F.RepMag m := hf
        rcases eq_or_lt_of_le (Format.RepMag.nonneg hm) with h0 | hpos
        · rw [← h0, ConstexprCmath.fpclassify_fin_zero]
          simp [stdFpclassify]
        · rw [ConstexprCmath.fpclassify_fin_eval hF s hpos (Format.RepMag.le_fmax hF hm)]
          simp [stdFpclassify, hpos.ne']
  · intro f hf hnan
    rw [signbit_eq_sign hf hnan]
    rfl
  · intro f s hf hs hnf hns
    have hsbs : ConstexprCmath.signbit s = s.sign := signbit_eq_sign hs hns
    have hsbf : ConstexprCmath.signbit f = f.sign := signbit_eq_sign hf hnf
    cases f with
    | nan => exact absurd rfl hnf
    | inf t =>
        rw [ConstexprCmath.copysign, hsbf, hsbs]
        have hsign : (FP.inf t).sign = t := rfl
        rw [hsign]
        cases t <;> cases hss : s.sign <;> simp [stdCopysign, FP.neg, hss]
    | fin t m =>
        rw [ConstexprCmath.copysign, hsbf, hsbs]
        have hsign : (FP.fin t m).sign = t := rfl
        rw [hsign]
        cases t <;> cases hss : s.sign <;> simp [stdCopysign, FP.neg, hss]
  · intro f hf
    cases f with
    | nan =>
        rw [ConstexprCmath.ilogb_nan]
        rfl
    | inf s =>
        rw [ConstexprCmath.ilogb_inf]
        rfl
    | fin s m =>
        have hm : F.RepMag m := hf
        rcases eq_or_lt_of_le (Format.RepMag.nonneg hm) with h0 | hpos
        · rw [← h0, ConstexprCmath.ilogb_fin_zero]
          simp [stdIlogb]
        · rw [ConstexprCmath.ilogb_fin_eval hF s hpos (Format.RepMag.le_fmax hF hm)]
          simp [stdIlogb, hpos.ne']
  · intro f hf e
    cases f with
    | nan => rfl
    | inf s => cases s <;> rfl
    | fin s m =>
        have hm : F.RepMag m := hf
        rcases eq_or_lt_of_le (Format.RepMag.nonneg hm) with h0 | hpos
        · rw [← h0]
          have hg : ConstexprCmath.scalbn F (FP.fin s 0) e = FP.fin s 0 := by
            rw [ConstexprCmath.scalbn]
            have hbeq : FP.beq (FP.fin s 0) (FP.fin false 0) = true := by
              cases s <;> simp [FP.beq]
            rw [hbeq]
            simp
          rw [hg]
          show FP.fin s 0 = FP.fin s (0 * (F.radix : ℚ) ^ e)
          rw [zero_mul]
        · rw [ConstexprCmath.scalbn_fin_eval hF s hpos (Format.RepMag.le_fmax hF hm) e]
          rfl

/-- Witness for C9: instantiated at `binary32`. -/
theorem C9_fallback_agreement_witness :
    (∀ f : FP, binary32.IsVal f →
      ConstexprCmath.fpclassify binary32 f = stdFpclassify binary32 f) ∧
    (∀ f : FP, binary32.IsVal f → f ≠ FP.nan →
      ConstexprCmath.signbit f = stdSignbit f) ∧
    (∀ f s : FP, binary32.IsVal f → binary32.IsVal s → f ≠ FP.nan → s ≠ FP.nan →
      ConstexprCmath.copysign f s = stdCopysign f s) ∧
    (∀ f : FP, binary32.IsVal f →
      ConstexprCmath.ilogb binary32 f = stdIlogb binary32 f) ∧
    (∀ f : FP, binary32.IsVal f → ∀ e : ℤ,
      ConstexprCmath.scalbn binary32 f e = stdScalbn binary32 f e) :=
  C9_fallback_agreement binary32 ⟨by decide, by decide, by decide, by decide⟩

/-! ## Claim C5: the comparator is a strict total order off NaN -/

/-- The digit-comparison loop is asymmetric. -/
lemma digitsLt_asymm (n : Bool) : ∀ A B : List ℤ,
    DecompRep.digitsLt n A B = true → DecompRep.digitsLt n B A = false := by
  intro A
  induction A with
  | nil =>
      intro B h
      cases B <;> simp [DecompRep.digitsLt] at h
  | cons a as ih =>
      intro B h
      cases B with
      | nil => simp [DecompRep.digitsLt] at h
      | cons b bs =>
          rw [DecompRep.digitsLt] at h ⊢
          by_cases hab : a = b
          · subst hab
            simp only [ne_eq, not_true_eq_false, if_false] at h ⊢
            exact ih bs h
          · rw [if_pos hab] at h
            rw [if_pos (Ne.symm hab)]
            cases n
            · simp only [Bool.false_eq_true, if_false] at h ⊢
              have hlt : a < b := of_decide_eq_true h
              exact decide_eq_false (not_lt.mpr (le_of_lt hlt))
            · simp only [if_true] at h ⊢
              have hlt : b < a := of_decide_eq_true h
              exact decide_eq_false (not_lt.mpr (le_of_lt hlt))

/-- The digit-comparison loop is transitive. -/
lemma digitsLt_trans (n : Bool) : ∀ A B C : List ℤ,
    DecompRep.digitsLt n A B = true → DecompRep.digitsLt n B C = true →
    DecompRep.digitsLt n A C = true := by
  intro A
  induction A with
  | nil =>
      intro B C h1 h2
      cases B <;> simp [DecompRep.digitsLt] at h1
  | cons a as ih =>
      intro B C h1 h2
      cases B with
      | nil => simp [DecompRep.digitsLt] at h1
      | cons b bs =>
          cases C with
          | nil => simp [DecompRep.digitsLt] at h2
          | cons c cs =>
              rw [DecompRep.digitsLt] at h1 h2 ⊢
              by_cases hab : a = b
              · subst hab
                simp only [ne_eq, not_true_eq_false, if_false] at h1
                by_cases hbc : a = c
                · subst hbc
                  simp only [ne_eq, not_true_eq_false, if_false] at h2 ⊢
                  exact ih bs cs h1 h2
                · rw [if_pos hbc] at h2
                  rw [if_pos hbc]
                  exact h2
              · rw [if_pos hab] at h1
                by_cases hbc : b = c
                · subst hbc
                  rw [if_pos hab]
                  exact h1
                · rw [if_pos hbc] at h2
                  cases n
                  · simp only [Bool.false_eq_true, if_false] at h1 h2 ⊢
                    have l1 : a < b := of_decide_eq_true h1
                    have l2 : b < c := of_decide_eq_true h2
                    rw [if_pos (ne_of_lt (lt_trans l1 l2))]
                    exact decide_eq_true (lt_trans l1 l2)
                  · simp only [if_true] at h1 h2 ⊢
                    have l1 : b < a := of_decide_eq_true h1
                    have l2 : c < b := of_decide_eq_true h2
                    rw [if_pos (Ne.symm (ne_of_lt (lt_trans l2 l1)))]
                    exact decide_eq_true (lt_trans l2 l1)

/-- The equal-sign finite branch is asymmetric. -/
lemma innerLt_asymm (n : Bool) (a b : DecompRep) (h : innerLt n a b = true) :
    innerLt n b a = false := by
  rw [innerLt] at h ⊢
  by_cases hil : a.ilogb = b.ilogb
  · rw [if_neg (fun hcon => hcon hil)] at h
    rw [if_neg (fun hcon => hcon hil.symm)]
    exact digitsLt_asymm n _ _ h
  · rw [if_pos hil] at h
    rw [if_pos (Ne.symm hil)]
    cases n
    · simp only [Bool.false_eq_true, if_false] at h ⊢
      have hlt := of_decide_eq_true h
      exact decide_eq_false (not_lt.mpr (le_of_lt hlt))
    · simp only [if_true] at h ⊢
      have hlt := of_decide_eq_true h
      exact decide_eq_false (not_lt.mpr (le_of_lt hlt))

/-- The equal-sign finite branch is transitive. -/
lemma innerLt_trans (n : Bool) (a b c : DecompRep) (h1 : innerLt n a b = true)
    (h2 : innerLt n b c = true) : innerLt n a c = true := by
  rw [innerLt] at h1 h2 ⊢
  by_cases hab : a.ilogb = b.ilogb
  · rw [if_neg (fun hcon => hcon hab)] at h1
    by_cases hbc : b.ilogb = c.ilogb
    · rw [if_neg (fun hcon => hcon hbc)] at h2
      rw [if_neg (fun hcon => hcon (hab.trans hbc))]
      exact digitsLt_trans n _ _ _ h1 h2
    · rw [if_pos hbc] at h2
      have hac : a.ilogb ≠ c.ilogb := by
        rw [hab]
        exact hbc
      rw [if_pos hac, hab]
      exact h2
  · rw [if_pos hab] at h1
    by_cases hbc : b.ilogb = c.ilogb
    · have hac : a.ilogb ≠ c.ilogb := by
        rw [← hbc]
        exact hab
      rw [if_pos hac, ← hbc]
      exact h1
    · rw [if_pos hbc] at h2
      cases n
      · simp only [Bool.false_eq_true, if_false] at h1 h2 ⊢
        have l1 := of_decide_eq_true h1
        have l2 := of_decide_eq_true h2
        rw [if_pos (ne_of_lt (lt_trans l1 l2))]
        exact decide_eq_true (lt_trans l1 l2)
      · simp only [if_true] at h1 h2 ⊢
        have l1 := of_decide_eq_true h1
        have l2 := of_decide_eq_true h2
        rw [if_pos (Ne.symm (ne_of_lt (lt_trans l2 l1)))]
        exact decide_eq_true (lt_trans l2 l1)

lemma cat_beq_eq_decide (x y : Category) : (x == y) = decide (x = y) := rfl

/-- The comparator characterized by rank: strictly smaller rank, or equal rank
in one of the two finite nonzero classes with the equal-sign branch deciding. -/
lemma repLt_rank_iff {a b : DecompRep}
    (ha : a.category ≠ Category.nan) (hb : b.category ≠ Category.nan) :
    DecompRep.repLt a b = true ↔
      (rankR a < rankR b ∨
        (rankR a = rankR b ∧ a.signbit = b.signbit ∧ (rankR a = 1 ∨ rankR a = 3) ∧
          innerLt a.signbit a b = true)) := by
  cases hac : a.category <;> cases hbc : b.category <;>
    first
      | exact absurd hac ha
      | exact absurd hbc hb
      | (cases hsa : a.signbit <;> cases hsb : b.signbit <;>
          simp +decide [DecompRep.repLt, rankR, innerLt, DecompRep.isnanR, DecompRep.isinfR,
            DecompRep.iszeroR, DecompRep.isposR, DecompRep.isnegR, DecompRep.isposinfR,
            DecompRep.isneginfR, cat_beq_eq_decide, hac, hbc, hsa, hsb])

/-- Asymmetry of the comparator off NaN. -/
lemma repLt_asymm {a b : DecompRep}
    (ha : a.category ≠ Category.nan) (hb : b.category ≠ Category.nan)
    (h : DecompRep.repLt a b = true) : DecompRep.repLt b a = false := by
  rw [Bool.eq_false_iff]
  intro hba
  rcases (repLt_rank_iff ha hb).mp h with h1 | ⟨e1, hs1, hr1, i1⟩ <;>
    rcases (repLt_rank_iff hb ha).mp hba with h2 | ⟨e2, hs2, hr2, i2⟩
  · omega
  · omega
  · omega
  · rw [← hs1] at i2
    have := innerLt_asymm a.signbit a b i1
    rw [this] at i2
    exact Bool.false_ne_true i2

/-- Transitivity of the comparator off NaN. -/
lemma repLt_trans {a b c : DecompRep}
    (ha : a.category ≠ Category.nan) (hb : b.category ≠ Category.nan)
    (hc : c.category ≠ Category.nan)
    (h1 : DecompRep.repLt a b = true) (h2 : DecompRep.repLt b c = true) :
    DecompRep.repLt a c = true := by
  rw [repLt_rank_iff ha hc]
  rcases (repLt_rank_iff ha hb).mp h1 with r1 | ⟨e1, hs1, hr1, i1⟩ <;>
    rcases (repLt_rank_iff hb hc).mp h2 with r2 | ⟨e2, hs2, hr2, i2⟩
  · exact Or.inl (lt_trans r1 r2)
  · exact Or.inl (by omega)
  · exact Or.inl (by omega)
  · refine Or.inr ⟨by omega, hs1.trans hs2, hr1, ?_⟩
    rw [← hs1] at i2
    exact innerLt_trans a.signbit a b c i1 i2

/-- C5: on non-NaN decomposed representations the comparator is a strict total
order: for any two, exactly one of `a < b`, `b < a`, `a == b` (neither
direction, the comparator's notion of equivalence) holds, and the relation is
transitive. -/
theorem C5_strict_total_order (a b c : DecompRep)
    (ha : a.category ≠ Category.nan) (hb : b.category ≠ Category.nan)
    (hc : c.category ≠ Category.nan) :
    ((DecompRep.repLt a b = true ∧ DecompRep.repLt b a = false) ∨
      (DecompRep.repLt b a = true ∧ DecompRep.repLt a b = false) ∨
      (DecompRep.repLt a b = false ∧ DecompRep.repLt b a = false)) ∧
    (DecompRep.repLt a b = true → DecompRep.repLt b c = true →
      DecompRep.repLt a c = true) := by
  constructor
  · cases hab : DecompRep.repLt a b
    · cases hba : DecompRep.repLt b a
      · exact Or.inr (Or.inr ⟨rfl, rfl⟩)
      · exact Or.inr (Or.inl ⟨rfl, rfl⟩)
    · exact Or.inl ⟨rfl, repLt_asymm ha hb hab⟩
  · exact repLt_trans ha hb hc

/-- Witness for C5: a negative-zero representation, a positive normal
representation, and a positive infinity. -/
theorem C5_strict_total_order_witness :
    ((DecompRep.repLt ⟨Category.zero, true, [0], 0⟩ ⟨Category.normal, false, [1], 0⟩ = true ∧
        DecompRep.repLt ⟨Category.normal, false, [1], 0⟩ ⟨Category.zero, true, [0], 0⟩ = false) ∨
      (DecompRep.repLt ⟨Category.normal, false, [1], 0⟩ ⟨Category.zero, true, [0], 0⟩ = true ∧
        DecompRep.repLt ⟨Category.zero, true, [0], 0⟩ ⟨Category.normal, false, [1], 0⟩ = false) ∨
      (DecompRep.repLt ⟨Category.zero, true, [0], 0⟩ ⟨Category.normal, false, [1], 0⟩ = false ∧
        DecompRep.repLt ⟨Category.normal, false, [1], 0⟩ ⟨Category.zero, true, [0], 0⟩ = false)) ∧
    (DecompRep.repLt ⟨Category.zero, true, [0], 0⟩ ⟨Category.normal, false, [1], 0⟩ = true →
      DecompRep.repLt ⟨Category.normal, false, [1], 0⟩ ⟨Category.infinite, false, [0], 0⟩ = true →
      DecompRep.repLt ⟨Category.zero, true, [0], 0⟩ ⟨Category.infinite, false, [0], 0⟩ = true) :=
  C5_strict_total_order ⟨Category.zero, true, [0], 0⟩ ⟨Category.normal, false, [1], 0⟩
    ⟨Category.infinite, false, [0], 0⟩ (by decide) (by decide) (by decide)

/-! ## Claim C6: exponent overflow saturates to signed infinity -/

/-- C6: converting a Normal or Subnormal representation whose exponent is at or
beyond the destination's maximum exponent yields the destination's infinity
with the representation's sign applied, not a scaled finite value. -/
theorem C6_exponent_overflow (F : Format) (N : ℕ) (rep : DecompRep)
    (hcat : rep.category = Category.normal ∨ rep.category = Category.subnormal)
    (hil : F.maxExp ≤ rep.ilogb) :
    toFP F N rep = FP.inf rep.signbit := by
  rw [toFP]
  have hcat0 : ¬(rep.category = Category.zero) := by
    rcases hcat with hc | hc <;> simp [hc]
  have hcat1 : rep.category = Category.subnormal ∨ rep.category = Category.normal := hcat.symm
  rw [if_neg hcat0, if_pos hcat1, if_pos hil]
  cases hs : rep.signbit
  · simp
  · simp only [if_true]
    rw [ConstexprCmath.copysign_negone, ConstexprCmath.signbit_inf]
    simp [FP.neg]

/-- Witness for C6: a negative normal representation with exponent
`128 = binary32.maxExp` converts to negative infinity. -/
theorem C6_exponent_overflow_witness :
    toFP binary32 3 ⟨Category.normal, true, [1, 0, 0], 128⟩ = FP.inf true :=
  C6_exponent_overflow binary32 3 ⟨Category.normal, true, [1, 0, 0], 128⟩
    (Or.inl rfl) (by decide)

/-- Witness for C7: instantiated at `binary32`/`int32`. -/
theorem C7_in_range_IF_nonfinite_witness :
    in_range_IF binary32 int32 FP.nan = false ∧
    in_range_IF binary32 int32 (FP.inf false) = false ∧
    in_range_IF binary32 int32 (FP.inf true) = false :=
  C7_in_range_IF_nonfinite binary32 int32 ⟨by decide, by decide, by decide, by decide⟩
    ⟨by decide, by decide⟩

end InRangeExt
